import Mathlib

/-!
Verification of the import-sorting core of `impsort.py`.

The Python program collects the top-level plain-import and from-import
statements of a file, classifies each module (future / standard library /
third party / other), sorts the resulting single-name statements by a
six-field tuple key and prints them back out with blank lines between
provenance groups.

The embedding below mirrors the source file: `visit_Import` /
`visit_ImportFrom` accumulate state, `node_sort_key` builds the tuple key
(raising the same exception classes the Python code would raise),
`new_nodes` regenerates single-name nodes and `write_sorted` sorts and
renders them.  Python-2 comparison semantics (`None` sorts below every
string, tuples and lists compare lexicographically, ties between equal keys
fall back to comparing object identities) are modelled by explicit,
structurally recursive comparators so that every definition evaluates
inside the kernel.
-/

deriving instance DecidableEq for Except

namespace PyImpSort

/-! ### Three-way comparators with Python-2 ordering semantics -/

/-- A comparator that behaves like a linear order: `.eq` exactly on equal
arguments, swapping the arguments swaps the verdict, and `.lt` is
transitive. -/
structure LawfulCmp {α : Type} (cmp : α → α → Ordering) : Prop where
  eq_iff : ∀ a b, cmp a b = .eq ↔ a = b
  swap_eq : ∀ a b, (cmp a b).swap = cmp b a
  lt_trans : ∀ {a b c}, cmp a b = .lt → cmp b c = .lt → cmp a c = .lt

namespace LawfulCmp

variable {α : Type} {cmp : α → α → Ordering}

theorem cmp_refl (h : LawfulCmp cmp) (a : α) : cmp a a = .eq :=
  (h.eq_iff a a).mpr rfl

theorem gt_iff (h : LawfulCmp cmp) (a b : α) : cmp a b = .gt ↔ cmp b a = .lt := by
  have hs := h.swap_eq a b
  constructor
  · intro hx
    rw [← hs, hx]
    rfl
  · intro hx
    rw [← hs] at hx
    cases hcab : cmp a b <;> rw [hcab] at hx <;> simp [Ordering.swap] at hx ⊢

theorem ne_of_lt (h : LawfulCmp cmp) {a b : α} (hab : cmp a b = .lt) : a ≠ b :=
  fun he => absurd ((h.eq_iff a b).mpr he) (by simp [hab])

theorem ne_of_gt (h : LawfulCmp cmp) {a b : α} (hab : cmp a b = .gt) : a ≠ b :=
  fun he => absurd ((h.eq_iff a b).mpr he) (by simp [hab])

theorem lt_asymm (h : LawfulCmp cmp) {a b : α} (hab : cmp a b = .lt)
    (hba : cmp b a = .lt) : False := by
  have := h.lt_trans hab hba
  rw [h.cmp_refl a] at this
  exact Ordering.noConfusion this

theorem lt_of_lt_of_eqc (h : LawfulCmp cmp) {a b c : α} (hab : cmp a b = .lt)
    (hbc : cmp b c = .eq) : cmp a c = .lt := by
  have := (h.eq_iff b c).mp hbc
  rwa [← this]

theorem lt_of_eqc_of_lt (h : LawfulCmp cmp) {a b c : α} (hab : cmp a b = .eq)
    (hbc : cmp b c = .lt) : cmp a c = .lt := by
  have := (h.eq_iff a b).mp hab
  rwa [this]

/-- The `≤` relation induced by a comparator (`cmp a b ≠ .gt`) is total. -/
theorem le_total (h : LawfulCmp cmp) (a b : α) : cmp a b ≠ .gt ∨ cmp b a ≠ .gt := by
  cases hab : cmp a b with
  | lt => exact Or.inl (by simp)
  | eq => exact Or.inl (by simp)
  | gt =>
    refine Or.inr ?_
    have hlt := (h.gt_iff a b).mp hab
    intro hba
    exact h.lt_asymm hlt ((h.gt_iff b a).mp hba)

theorem le_trans (h : LawfulCmp cmp) {a b c : α} (hab : cmp a b ≠ .gt)
    (hbc : cmp b c ≠ .gt) : cmp a c ≠ .gt := by
  cases h1 : cmp a b with
  | gt => exact absurd h1 hab
  | eq =>
    cases h2 : cmp b c with
    | gt => exact absurd h2 hbc
    | eq =>
      have hac : cmp a c = .eq := by
        rw [(h.eq_iff a b).mp h1]
        exact h2
      simp [hac]
    | lt => simp [h.lt_of_eqc_of_lt h1 h2]
  | lt =>
    cases h2 : cmp b c with
    | gt => exact absurd h2 hbc
    | eq => simp [h.lt_of_lt_of_eqc h1 h2]
    | lt => simp [h.lt_trans h1 h2]

theorem le_antisymm (h : LawfulCmp cmp) {a b : α} (hab : cmp a b ≠ .gt)
    (hba : cmp b a ≠ .gt) : a = b := by
  cases h1 : cmp a b with
  | gt => exact absurd h1 hab
  | eq => exact (h.eq_iff a b).mp h1
  | lt => exact absurd ((h.gt_iff b a).mpr h1) hba

end LawfulCmp

/-- Comparator on natural numbers. -/
def natCmp (a b : Nat) : Ordering :=
  if a < b then .lt else if a = b then .eq else .gt

theorem natCmp_lt {a b : Nat} : natCmp a b = .lt ↔ a < b := by
  unfold natCmp
  split
  · simp_all
  · split <;> simp <;> omega

theorem natCmp_eq {a b : Nat} : natCmp a b = .eq ↔ a = b := by
  unfold natCmp
  split
  · simp
    omega
  · split <;> simp_all

theorem natCmp_gt {a b : Nat} : natCmp a b = .gt ↔ b < a := by
  unfold natCmp
  split
  · simp
    omega
  · split <;> simp <;> omega

theorem lawful_natCmp : LawfulCmp natCmp := by
  constructor
  · intro a b
    exact natCmp_eq
  · intro a b
    cases h : natCmp a b with
    | lt =>
      have : natCmp b a = .gt := natCmp_gt.mpr (natCmp_lt.mp h)
      rw [this]
      rfl
    | eq =>
      have : natCmp b a = .eq := natCmp_eq.mpr (natCmp_eq.mp h).symm
      rw [this]
      rfl
    | gt =>
      have : natCmp b a = .lt := natCmp_lt.mpr (natCmp_gt.mp h)
      rw [this]
      rfl
  · intro a b c hab hbc
    rw [natCmp_lt] at *
    omega

/-- Comparator on characters: Python compares by code point. -/
def charCmp (a b : Char) : Ordering :=
  natCmp a.toNat b.toNat

theorem lawful_charCmp : LawfulCmp charCmp := by
  constructor
  · intro a b
    unfold charCmp
    rw [natCmp_eq]
    constructor
    · intro hx
      exact Char.ext (UInt32.ext hx)
    · intro hx
      rw [hx]
  · intro a b
    exact lawful_natCmp.swap_eq _ _
  · intro a b c hab hbc
    exact lawful_natCmp.lt_trans hab hbc

/-- Lexicographic comparator on lists (Python list and tuple comparison:
elementwise, a strict prefix is smaller). -/
def listCmp {α : Type} (cmp : α → α → Ordering) : List α → List α → Ordering
  | [], [] => .eq
  | [], _ :: _ => .lt
  | _ :: _, [] => .gt
  | a :: as, b :: bs => (cmp a b).then (listCmp cmp as bs)

theorem lawful_listCmp {α : Type} {cmp : α → α → Ordering}
    (h : LawfulCmp cmp) : LawfulCmp (listCmp cmp) := by
  constructor
  · intro a b
    induction a generalizing b with
    | nil => cases b <;> simp [listCmp]
    | cons x xs ih =>
      cases b with
      | nil => simp [listCmp]
      | cons y ys =>
        simp only [listCmp, List.cons.injEq]
        cases hxy : cmp x y with
        | eq =>
          have hx : x = y := (h.eq_iff x y).mp hxy
          simp [Ordering.then, hx, ih]
        | lt => simp [Ordering.then, h.ne_of_lt hxy]
        | gt => simp [Ordering.then, h.ne_of_gt hxy]
  · intro a b
    induction a generalizing b with
    | nil => cases b <;> rfl
    | cons x xs ih =>
      cases b with
      | nil => rfl
      | cons y ys =>
        simp only [listCmp]
        cases hxy : cmp x y with
        | lt =>
          have h2 : cmp y x = .gt := (h.gt_iff y x).mpr hxy
          simp [Ordering.then, h2, Ordering.swap]
        | gt =>
          have h2 : cmp y x = .lt := (h.gt_iff x y).mp hxy
          simp [Ordering.then, h2, Ordering.swap]
        | eq =>
          have h2 : cmp y x = .eq := by
            rw [← (h.eq_iff x y).mp hxy]
            exact h.cmp_refl x
          simp [Ordering.then, h2, ih]
  · intro a b c hab hbc
    induction a generalizing b c with
    | nil => cases b <;> cases c <;> simp_all [listCmp]
    | cons x xs ih =>
      cases b with
      | nil => simp [listCmp] at hab
      | cons y ys =>
        cases c with
        | nil => simp [listCmp] at hbc
        | cons z zs =>
          simp only [listCmp] at hab hbc ⊢
          cases hxy : cmp x y with
          | gt => simp [hxy, Ordering.then] at hab
          | lt =>
            cases hyz : cmp y z with
            | gt => simp [hyz, Ordering.then] at hbc
            | lt => simp [Ordering.then, h.lt_trans hxy hyz]
            | eq => simp [Ordering.then, h.lt_of_lt_of_eqc hxy hyz]
          | eq =>
            cases hyz : cmp y z with
            | gt => simp [hyz, Ordering.then] at hbc
            | lt => simp [Ordering.then, h.lt_of_eqc_of_lt hxy hyz]
            | eq =>
              have hxz : cmp x z = .eq := by
                rw [(h.eq_iff x y).mp hxy]
                exact hyz
              simp only [hxy, hyz, hxz, Ordering.then] at hab hbc ⊢
              exact ih hab hbc

/-- Comparator on optional values: Python 2 sorts `None` below everything. -/
def optCmp {α : Type} (cmp : α → α → Ordering) : Option α → Option α → Ordering
  | none, none => .eq
  | none, some _ => .lt
  | some _, none => .gt
  | some a, some b => cmp a b

theorem lawful_optCmp {α : Type} {cmp : α → α → Ordering}
    (h : LawfulCmp cmp) : LawfulCmp (optCmp cmp) := by
  constructor
  · intro a b
    cases a <;> cases b <;> simp [optCmp, h.eq_iff]
  · intro a b
    cases a with
    | none => cases b <;> rfl
    | some x =>
      cases b with
      | none => rfl
      | some y => exact h.swap_eq x y
  · intro a b c hab hbc
    cases a <;> cases b <;> cases c <;> simp_all [optCmp]
    exact h.lt_trans hab hbc

/-- Comparator on strings via their character data (Python compares strings
lexicographically; for the ASCII identifiers involved here byte order and
code-point order agree). -/
def strCmp (a b : String) : Ordering :=
  listCmp charCmp a.data b.data

theorem lawful_strCmp : LawfulCmp strCmp := by
  constructor
  · intro a b
    unfold strCmp
    rw [(lawful_listCmp lawful_charCmp).eq_iff]
    constructor
    · intro hx
      exact congrArg String.mk hx
    · intro hx
      rw [hx]
  · intro a b
    exact (lawful_listCmp lawful_charCmp).swap_eq _ _
  · intro a b c hab hbc
    exact (lawful_listCmp lawful_charCmp).lt_trans hab hbc

/-- Lexicographic comparator on pairs (Python tuple comparison). -/
def prodCmp {α β : Type} (ca : α → α → Ordering) (cb : β → β → Ordering)
    (x y : α × β) : Ordering :=
  (ca x.1 y.1).then (cb x.2 y.2)

theorem lawful_prodCmp {α β : Type} {ca : α → α → Ordering}
    {cb : β → β → Ordering} (ha : LawfulCmp ca) (hb : LawfulCmp cb) :
    LawfulCmp (prodCmp ca cb) := by
  constructor
  · intro x y
    obtain ⟨x1, x2⟩ := x
    obtain ⟨y1, y2⟩ := y
    simp only [prodCmp, Prod.mk.injEq]
    cases h1 : ca x1 y1 with
    | eq =>
      have hx : x1 = y1 := (ha.eq_iff x1 y1).mp h1
      simp [Ordering.then, hx, hb.eq_iff]
    | lt => simp [Ordering.then, ha.ne_of_lt h1]
    | gt => simp [Ordering.then, ha.ne_of_gt h1]
  · intro x y
    obtain ⟨x1, x2⟩ := x
    obtain ⟨y1, y2⟩ := y
    simp only [prodCmp]
    cases h1 : ca x1 y1 with
    | lt =>
      have h2 : ca y1 x1 = .gt := (ha.gt_iff y1 x1).mpr h1
      simp [Ordering.then, h2, Ordering.swap]
    | gt =>
      have h2 : ca y1 x1 = .lt := (ha.gt_iff x1 y1).mp h1
      simp [Ordering.then, h2, Ordering.swap]
    | eq =>
      have h2 : ca y1 x1 = .eq := by
        rw [← (ha.eq_iff x1 y1).mp h1]
        exact ha.cmp_refl x1
      simp only [Ordering.then, h2]
      exact hb.swap_eq x2 y2
  · intro x y z hxy hyz
    obtain ⟨x1, x2⟩ := x
    obtain ⟨y1, y2⟩ := y
    obtain ⟨z1, z2⟩ := z
    simp only [prodCmp] at hxy hyz ⊢
    cases h1 : ca x1 y1 with
    | gt => simp [h1, Ordering.then] at hxy
    | lt =>
      cases h2 : ca y1 z1 with
      | gt => simp [h2, Ordering.then] at hyz
      | lt => simp [Ordering.then, ha.lt_trans h1 h2]
      | eq => simp [Ordering.then, ha.lt_of_lt_of_eqc h1 h2]
    | eq =>
      cases h2 : ca y1 z1 with
      | gt => simp [h2, Ordering.then] at hyz
      | lt => simp [Ordering.then, ha.lt_of_eqc_of_lt h1 h2]
      | eq =>
        have h3 : ca x1 z1 = .eq := by
          rw [(ha.eq_iff x1 y1).mp h1]
          exact h2
        simp only [h1, h2, h3, Ordering.then] at hxy hyz ⊢
        exact hb.lt_trans hxy hyz

/-! ### The embedded program

Data model: an `ImportAlias` is one `name [as asname]` item of an import
statement; a `Node` is one of the two AST node shapes the sorter recognises
(`ast.Import` / `ast.ImportFrom`).  `PyExc` enumerates the exception
classes that can arise in the embedded fragment. -/

/-- Exception classes of the Python runtime that the embedded code can
raise or catch. -/
inductive PyExc : Type
  | importError
  | attributeError
  | indexError
  | osError
deriving DecidableEq

/-- One `name [as asname]` item (`ast.alias`). -/
structure ImportAlias : Type where
  name : String
  asname : Option String
deriving DecidableEq

/-- An import statement node: `ast.Import` or `ast.ImportFrom`.  For
`ast.ImportFrom`, `module` is `None` for pure relative imports such as
`from . import x`, and `level` counts the leading dots. -/
inductive Node : Type
  | imp (names : List ImportAlias)
  | impFrom (module : Option String) (names : List ImportAlias) (level : Nat)
deriving DecidableEq

/-- The run environment captured in `ImpSorter.__init__`: the enumerated
standard-library module names (`iter_stdmodules`), the built-in module
names (`sys.builtin_module_names`), `sys.path`, and the behaviour of
`imp.find_module` (an external probe that either locates the module,
signals `ImportError`, or signals some other exception class such as an
OS-level error). -/
structure Env : Type where
  std_modules : List String
  builtin_module_names : List String
  sys_path : List String
  find_module : String → List String → Except PyExc Unit

/-- `self.python_paths = [p for p in sys.path if p]`. -/
def python_paths (env : Env) : List String :=
  env.sys_path.filter (fun p => p ≠ "")

/-- `self.stdlibs = set(self.iter_stdmodules()) | set(sys.builtin_module_names)
| set(['itertools', 'operator'])` (membership is what matters for a set). -/
def stdlibs (env : Env) : List String :=
  env.std_modules ++ env.builtin_module_names ++ ["itertools", "operator"]

/-- `ImpSorter.is_thirdparty`: probe `imp.find_module(modname,
self.python_paths)`, catching exactly the `ImportError` class. -/
def is_thirdparty (env : Env) (modname : String) : Except PyExc Bool :=
  match env.find_module modname (python_paths env) with
  | .ok _ => .ok true
  | .error .importError => .ok false
  | .error e => .error e

/-- The sort key built by `ImpSorter._node_sort_key`:
`(future, stdlib, thirdparty, fromimport, name, from_names)`. -/
structure Key : Type where
  future : Nat
  stdlib : Nat
  thirdparty : Nat
  fromimport : Nat
  name : List (Option String)
  from_names : Option (List String)
deriving DecidableEq

instance : Inhabited Key := ⟨⟨1, 1, 1, 0, [], none⟩⟩

/-- `name[0].split('.')[0]`: the characters before the first dot. -/
def py_split_head (s : String) : String :=
  String.mk (s.data.takeWhile (fun c => c ≠ '.'))

/-- The classification cascade of `_node_sort_key` applied to the
module-name entry `name[0]` of the key: `__future__` first, then the
stdlib set, then an `is_thirdparty` probe, else all ranks stay 1. -/
def rank_of (env : Env) (dotted : String) : Except PyExc (Nat × Nat × Nat) :=
  let modname := py_split_head dotted
  if modname = "__future__" then .ok (0, 1, 1)
  else if modname ∈ stdlibs env then .ok (1, 0, 1)
  else
    match is_thirdparty env modname with
    | .ok true => .ok (1, 1, 0)
    | .ok false => .ok (1, 1, 1)
    | .error e => .error e

/-- `ImpSorter._node_sort_key`.  For an `ast.Import`, `name` is the pair
`[node.names[0].name, node.names[0].asname]` (reading `names[0]` of an
empty list raises `IndexError`); for an `ast.ImportFrom`, `name` is
`[node.module]` and `node.module.split('.')` raises `AttributeError` when
`module` is `None`.  The relative `level` of a from-import is not read at
all. -/
def node_sort_key (env : Env) : Node → Except PyExc Key
  | .imp names =>
    match names.head? with
    | none => .error .indexError
    | some nm =>
      match rank_of env nm.name with
      | .ok (f, s, t) => .ok ⟨f, s, t, 0, [some nm.name, nm.asname], none⟩
      | .error e => .error e
  | .impFrom module names _level =>
    match module with
    | none => .error .attributeError
    | some m =>
      match rank_of env m with
      | .ok (f, s, t) => .ok ⟨f, s, t, 1, [some m], some (names.map ImportAlias.name)⟩
      | .error e => .error e

/-! ### Collection (`visit_Import` / `visit_ImportFrom`) -/

/-- A `(name, asname)` member of the `self.imports` set or of a
`self.from_imports[(level, module)]` set. -/
abbrev NamePair := String × Option String

/-- Adding one element to a Python set, modelled as a duplicate-free
list: already-present elements are not added again. -/
def set_add {α : Type} [DecidableEq α] (l : List α) (a : α) : List α :=
  if a ∈ l then l else l ++ [a]

/-- `set.update`: add each element in turn. -/
def set_update {α : Type} [DecidableEq α] (l : List α) (new : List α) : List α :=
  new.foldl set_add l

/-- The key of the `self.from_imports` defaultdict: `(node.level,
node.module)`. -/
abbrev FromKey := Nat × Option String

/-- `self.from_imports[key].update(pairs)` on the defaultdict, modelled as
an association list in insertion order: a missing key is created with an
empty set first. -/
def dict_update (m : List (FromKey × List NamePair)) (k : FromKey)
    (pairs : List NamePair) : List (FromKey × List NamePair) :=
  match m with
  | [] => [(k, set_update [] pairs)]
  | (k', v) :: rest =>
    if k' = k then (k', set_update v pairs) :: rest
    else (k', v) :: dict_update rest k pairs

/-- The accumulator state of an `ImpSorter` (the `original_nodes` list is
recorded by the source but never read again, so it is not modelled). -/
structure ImpSorterState : Type where
  imports : List NamePair
  from_imports : List (FromKey × List NamePair)
deriving DecidableEq

/-- The state right after `ImpSorter.__init__`. -/
def initState : ImpSorterState := ⟨[], []⟩

/-- A statement handed to the visitor: the two recognised import shapes
with their column offset, or any other statement (ignored by the
visitor's generic traversal). -/
inductive PyStmt : Type
  | importStmt (names : List ImportAlias) (col_offset : Nat)
  | importFromStmt (module : Option String) (names : List ImportAlias)
      (level : Nat) (col_offset : Nat)
  | otherStmt
deriving DecidableEq

/-- One visitor step: `visit_Import` / `visit_ImportFrom` skip nodes whose
`col_offset` is non-zero; other statements are ignored. -/
def visit (s : ImpSorterState) : PyStmt → ImpSorterState
  | .importStmt names col =>
    if col ≠ 0 then s
    else { s with imports := set_update s.imports (names.map fun nm => (nm.name, nm.asname)) }
  | .importFromStmt module names level col =>
    if col ≠ 0 then s
    else { s with from_imports := dict_update s.from_imports (level, module)
                    (names.map fun nm => (nm.name, nm.asname)) }
  | .otherStmt => s

/-- Visiting the whole tree: fold the visitor over the statements. -/
def collect (stmts : List PyStmt) : ImpSorterState :=
  stmts.foldl visit initState

/-! ### Node regeneration (`new_nodes`) and sorting -/

/-- Comparator for `(name, asname)` pairs, as Python's `sorted` compares
them (string first, `None` below any alias string). -/
def npCmp : NamePair → NamePair → Ordering :=
  prodCmp strCmp (optCmp strCmp)

theorem lawful_npCmp : LawfulCmp npCmp :=
  lawful_prodCmp lawful_strCmp (lawful_optCmp lawful_strCmp)

/-- The `≤` relation used by `sorted(names)` in `new_nodes`. -/
def npLe (a b : NamePair) : Prop := npCmp a b ≠ .gt

instance : DecidableRel npLe := fun a b => by
  unfold npLe
  infer_instance

instance : IsTrans NamePair npLe := ⟨fun _ _ _ => lawful_npCmp.le_trans⟩

instance : IsAntisymm NamePair npLe := ⟨fun _ _ => lawful_npCmp.le_antisymm⟩

instance : IsTotal NamePair npLe := ⟨fun a b => lawful_npCmp.le_total a b⟩

/-- The single-name nodes regenerated by `new_nodes`, without their keys:
for each `(level, module)` entry of `from_imports` (in dictionary order)
one `ast.ImportFrom` per name in `sorted(names)`, then one `ast.Import`
per member of the `imports` set. -/
def raw_nodes (s : ImpSorterState) : List Node :=
  (s.from_imports.flatMap fun kv =>
    (kv.2.insertionSort npLe).map fun p => Node.impFrom kv.1.2 [⟨p.1, p.2⟩] kv.1.1)
    ++ s.imports.map fun p => Node.imp [⟨p.1, p.2⟩]

/-- Pair each regenerated node with its `_node_sort_key`; the first
exception raised aborts the whole run, as in Python. -/
def attach_keys (env : Env) : List Node → Except PyExc (List (Key × Node))
  | [] => .ok []
  | n :: rest =>
    match node_sort_key env n with
    | .error e => .error e
    | .ok k =>
      match attach_keys env rest with
      | .error e => .error e
      | .ok ps => .ok ((k, n) :: ps)

/-- `ImpSorter.new_nodes`. -/
def new_nodes (env : Env) (s : ImpSorterState) : Except PyExc (List (Key × Node)) :=
  attach_keys env (raw_nodes s)

/-- Comparator for the full key, i.e. Python's comparison of the 6-tuple
`(future, stdlib, thirdparty, fromimport, name, from_names)`. -/
def keyCmp (a b : Key) : Ordering :=
  prodCmp natCmp (prodCmp natCmp (prodCmp natCmp (prodCmp natCmp
    (prodCmp (listCmp (optCmp strCmp)) (optCmp (listCmp strCmp))))))
    (a.future, a.stdlib, a.thirdparty, a.fromimport, a.name, a.from_names)
    (b.future, b.stdlib, b.thirdparty, b.fromimport, b.name, b.from_names)

theorem lawful_keyCmp : LawfulCmp keyCmp := by
  have base := lawful_prodCmp lawful_natCmp (lawful_prodCmp lawful_natCmp
    (lawful_prodCmp lawful_natCmp (lawful_prodCmp lawful_natCmp
      (lawful_prodCmp (lawful_listCmp (lawful_optCmp lawful_strCmp))
        (lawful_optCmp (lawful_listCmp lawful_strCmp))))))
  constructor
  · intro a b
    unfold keyCmp
    rw [base.eq_iff]
    obtain ⟨f, s, t, fi, nm, fn⟩ := a
    obtain ⟨f', s', t', fi', nm', fn'⟩ := b
    simp
  · intro a b
    exact base.swap_eq _ _
  · intro a b c hab hbc
    exact base.lt_trans hab hbc

/-- The pairwise comparison Python's `sorted` performs on the `(key, node)`
tuples of `new_nodes`: keys first; exactly equal keys fall through to
comparing the `ast` node objects themselves, which in Python 2 compares
their addresses — modelled by an arbitrary identity-numbering `addr` of
the run. -/
def pairLeB (addr : Node → Nat) (a b : Key × Node) : Bool :=
  match keyCmp a.1 b.1 with
  | .lt => true
  | .eq => Nat.ble (addr a.2) (addr b.2)
  | .gt => false

/-- `pairLeB` as a relation, for `List.insertionSort`. -/
def pairRel (addr : Node → Nat) (a b : Key × Node) : Prop :=
  pairLeB addr a b = true

instance (addr : Node → Nat) : DecidableRel (pairRel addr) := fun a b => by
  unfold pairRel
  infer_instance

/-- `sorted(self.new_nodes())`. -/
def sort_pairs (addr : Node → Nat) (l : List (Key × Node)) : List (Key × Node) :=
  l.insertionSort (pairRel addr)

/-! ### Rendering (`write_sorted`) -/

/-- `', '.join(' as '.join(nm for nm in (name.name, name.asname) if nm) for
name in node.names)`: Python's truthiness test drops both `None` and the
empty string. -/
def py_join (sep : String) : List String → String
  | [] => ""
  | [x] => x
  | x :: rest => x ++ sep ++ py_join sep rest

/-- The truthy elements of `(name.name, name.asname)`. -/
def truthy_parts (nm : ImportAlias) : List String :=
  ([some nm.name, nm.asname].filterMap id).filter (fun s => s ≠ "")

/-- The `all_names` string of `write_sorted`. -/
def all_names (names : List ImportAlias) : String :=
  py_join ", " (names.map fun nm => py_join " as " (truthy_parts nm))

/-- `'.' * node.level`. -/
def dots (level : Nat) : String :=
  String.mk (List.replicate level '.')

/-- The one line `write_sorted` prints for a node (Python's `format` would
render a `None` module as the text `None`). -/
def render_stmt : Node → String
  | .imp names => "import " ++ all_names names
  | .impFrom module names level =>
    "from " ++ dots level ++ (match module with | some m => m | none => "None")
      ++ " import " ++ all_names names

/-- `key[:3]`, the provenance triple that decides group separation. -/
def key_triple (k : Key) : Nat × Nat × Nat :=
  (k.future, k.stdlib, k.thirdparty)

/-- The printing loop of `write_sorted`: `pkey` starts as `None`; before
every node whose triple differs from the previous one (and only then) a
blank line is printed.  Every non-`None` previous key is a non-empty tuple
and hence truthy. -/
def render_loop : Option Key → List (Key × Node) → List String
  | _, [] => []
  | pkey, (key, node) :: rest =>
    (match pkey with
     | some pk => if key_triple key ≠ key_triple pk then [""] else []
     | none => []) ++ (render_stmt node :: render_loop (some key) rest)

/-- `ImpSorter.write_sorted`, producing the printed lines (each line is
terminated by one newline when written to the stream). -/
def write_sorted (env : Env) (addr : Node → Nat) (s : ImpSorterState) :
    Except PyExc (List String) :=
  match new_nodes env s with
  | .ok ns => .ok (render_loop none (sort_pairs addr ns))
  | .error e => .error e

/-- The byte content of the output stream: every printed line followed by
a newline. -/
def output_text (lines : List String) : String :=
  String.join (lines.map (fun l => l ++ "\n"))

/-! ### Derived views and spec-side models used by the claims -/

/-- The module name `name[0]` that `_node_sort_key` classifies: the first
alias's dotted name for a plain import, the `module` field for a
from-import. -/
def classify_name : Node → Option String
  | .imp names => names.head?.map ImportAlias.name
  | .impFrom module _ _ => module

/-- Whether a node is a from-import for the given `(level, module)` pair. -/
def is_from_node (level : Nat) (module : Option String) : Node → Bool
  | .impFrom m _ lv => decide (m = module) && decide (lv = level)
  | .imp _ => false

/-- Whether the visitor records a statement: an import shape at column 0. -/
def is_toplevel_import : PyStmt → Bool
  | .importStmt _ col => decide (col = 0)
  | .importFromStmt _ _ _ col => decide (col = 0)
  | .otherStmt => false

/-- Reading the value of a `(level, module)` key out of the accumulated
from-import dictionary (the empty set when the key is absent). -/
def dict_get : List (FromKey × List NamePair) → FromKey → List NamePair
  | [], _ => []
  | (k', v) :: rest, k => if k' = k then v else dict_get rest k

/-- The key `node_sort_key` assigns to a node for which it succeeds. -/
def key_of (env : Env) (n : Node) : Key :=
  match node_sort_key env n with
  | .ok k => k
  | .error _ => default

/-- The statement a rendered line parses back to.  The renderer prints one
statement per node at column 0, and the external parser is assumed to
invert printing, so re-parsing the output text yields exactly these
statements. -/
def stmt_of_node : Node → PyStmt
  | .imp names => .importStmt names 0
  | .impFrom m names lv => .importFromStmt m names lv 0

/-- Modelled from the spec: the statement list obtained by parsing the
rendered output of a sorted run (`parse` itself is outside the embedded
core; each printed line is the rendering of one node). -/
def reparse (l : List (Key × Node)) : List PyStmt :=
  l.map fun p => stmt_of_node p.2

/-- Modelled from the claim's words, for the tail of the output: before
each declaration except the first, exactly one blank line iff its
provenance triple differs from the previous declaration's. -/
def render_spec_tail (prev : Key) : List (Key × Node) → List String
  | [] => []
  | (k, n) :: rest =>
    (if key_triple k ≠ key_triple prev then [""] else [])
      ++ (render_stmt n :: render_spec_tail k rest)

/-- Modelled from the claim's words: no blank line before the first
declaration, then `render_spec_tail`. -/
def render_spec : List (Key × Node) → List String
  | [] => []
  | (k, n) :: rest => render_stmt n :: render_spec_tail k rest

/-! ### Concrete run environments and inputs used by witnesses and
counterexamples -/

/-- A small environment: `os` enumerated as stdlib, `sys` built in,
nothing resolvable on the search path. -/
def envStd : Env :=
  { std_modules := ["os"]
  , builtin_module_names := ["sys"]
  , sys_path := ["/lib"]
  , find_module := fun _ _ => .error .importError }

/-- An environment whose search-path probe fails with an OS-level error
(an exception class other than `ImportError`). -/
def envOsErr : Env :=
  { std_modules := ["os"]
  , builtin_module_names := ["sys"]
  , sys_path := ["/lib"]
  , find_module := fun _ _ => .error .osError }

/-- One possible identity numbering of the regenerated nodes. -/
def addrZero : Node → Nat := fun _ => 0

/-- An identity numbering under which a plain-alias node is allocated
below its aliased twin. -/
def addrTieA : Node → Nat
  | .impFrom _ [⟨_, none⟩] _ => 0
  | _ => 1

/-- An identity numbering under which a plain-alias node is allocated
above its aliased twin. -/
def addrTieB : Node → Nat
  | .impFrom _ [⟨_, none⟩] _ => 1
  | _ => 0

/-- The spec's running example: `import sys`, `from os import path`,
`from os import getcwd`, `import itertools`, all at top level. -/
def stmtsExample : List PyStmt :=
  [ .importStmt [⟨"sys", none⟩] 0
  , .importFromStmt (some "os") [⟨"path", none⟩] 0 0
  , .importFromStmt (some "os") [⟨"getcwd", none⟩] 0 0
  , .importStmt [⟨"itertools", none⟩] 0 ]

/-- Two from-imports sharing the `(0, os)` pair. -/
def stateTwoFromOs : ImpSorterState :=
  collect
    [ .importFromStmt (some "os") [⟨"path", none⟩] 0 0
    , .importFromStmt (some "os") [⟨"getcwd", none⟩] 0 0 ]

/-- Two from-imports whose regenerated nodes receive exactly equal sort
keys (the alias is in neither the `name` nor the `from_names` field). -/
def stateTiedKeys : ImpSorterState :=
  collect
    [ .importFromStmt (some "os") [⟨"path", none⟩] 0 0
    , .importFromStmt (some "os") [⟨"path", some "p"⟩] 0 0 ]

/-! ### Claim C9 -/

/-- Claim C9: the sort key of a from-import declaration does not depend on
its relative level — `node_sort_key` returns identical results (key or
exception) for two from-imports that differ only in `level`. -/
theorem C9_level_not_in_key (env : Env) (module : Option String)
    (names : List ImportAlias) (l1 l2 : Nat) :
    node_sort_key env (.impFrom module names l1)
      = node_sort_key env (.impFrom module names l2) := rfl

/-! ### Claim C3 -/

/-- Claim C3 (code bug): on the top-level statement `from . import utils`
(level 1, absent module) the sort-key builder evaluates `None.split('.')`
and raises `AttributeError`, aborting the run — the declaration is never
classified as Other nor rendered. -/
theorem C3_relative_import_raises :
    write_sorted envStd addrZero
        (collect [.importFromStmt none [⟨"utils", none⟩] 1 0])
      = .error .attributeError := by decide

/-! ### Claim C2 -/

/-- Claim C2 (code bug): the tuple key compares the kind rank before the
module name (the source's own docstring lists `name` before `fromimport`),
so inside one provenance group every plain import precedes every
from-import; on the spec's example the code renders `import sys` before
the `os` from-imports instead of after them. -/
theorem C2_plain_before_from_eval :
    write_sorted envStd addrZero (collect stmtsExample)
      = .ok ["import itertools", "import sys",
             "from os import getcwd", "from os import path"] := by decide

/-! ### Claim C4 -/

/-- Claim C4 counterexample: a search-path probe failure of a class other
than `ImportError` (here an OS-level error) is not caught locally — it
propagates out of `is_thirdparty` and aborts the whole run. -/
theorem C4_counterexample :
    is_thirdparty envOsErr "foo" = .error .osError
    ∧ write_sorted envOsErr addrZero (collect [.importStmt [⟨"foo", none⟩] 0])
        = .error .osError := by decide

/-- Claim C4 as amended: the classification probe handler catches exactly
the `ImportError` class — a located module is third party, an
`ImportError` is downgraded to "not third party" (hence Other), and a
failure of every other exception class propagates out of the
classification step. -/
theorem C4_importerror_only (env : Env) (m : String) :
    (env.find_module m (python_paths env) = .error .importError →
      is_thirdparty env m = .ok false)
    ∧ (env.find_module m (python_paths env) = .ok () →
      is_thirdparty env m = .ok true)
    ∧ (∀ e, e ≠ .importError → env.find_module m (python_paths env) = .error e →
      is_thirdparty env m = .error e) := by
  refine ⟨fun h => ?_, fun h => ?_, fun e he h => ?_⟩
  · unfold is_thirdparty
    rw [h]
  · unfold is_thirdparty
    rw [h]
  · unfold is_thirdparty
    rw [h]
    cases e <;> simp_all

/-- Witness for C4: in `envStd` the probe for `foo` raises `ImportError`
and `is_thirdparty` answers `false`; in `envOsErr` it raises an OS error
and `is_thirdparty` propagates that error. -/
theorem C4_importerror_only_witness :
    (envStd.find_module "foo" (python_paths envStd) = .error .importError
      ∧ is_thirdparty envStd "foo" = .ok false)
    ∧ (PyExc.osError ≠ PyExc.importError
      ∧ envOsErr.find_module "foo" (python_paths envOsErr) = .error .osError
      ∧ is_thirdparty envOsErr "foo" = .error .osError) :=
  ⟨⟨by decide, (C4_importerror_only envStd "foo").1 (by decide)⟩,
   ⟨by decide, by decide,
    (C4_importerror_only envOsErr "foo").2.2 .osError (by decide) (by decide)⟩⟩

/-! ### Claim C5 -/

/-- How the classification cascade fills the three rank fields, for a
dotted name whose ranks were computed without an uncaught probe error. -/
theorem rank_of_char (env : Env) (dotted : String) (f s t : Nat)
    (h : rank_of env dotted = .ok (f, s, t)) :
    (py_split_head dotted = "__future__" → (f, s, t) = (0, 1, 1))
    ∧ (py_split_head dotted ≠ "__future__" → py_split_head dotted ∈ stdlibs env →
        (f, s, t) = (1, 0, 1))
    ∧ (py_split_head dotted ≠ "__future__" → py_split_head dotted ∉ stdlibs env →
        is_thirdparty env (py_split_head dotted) = .ok true → (f, s, t) = (1, 1, 0))
    ∧ (py_split_head dotted ≠ "__future__" → py_split_head dotted ∉ stdlibs env →
        is_thirdparty env (py_split_head dotted) = .ok false → (f, s, t) = (1, 1, 1)) := by
  unfold rank_of at h
  by_cases h1 : py_split_head dotted = "__future__"
  · rw [if_pos h1] at h
    injection h with h
    exact ⟨fun _ => h.symm, fun hne _ => absurd h1 hne, fun hne _ _ => absurd h1 hne,
      fun hne _ _ => absurd h1 hne⟩
  · rw [if_neg h1] at h
    by_cases h2 : py_split_head dotted ∈ stdlibs env
    · rw [if_pos h2] at h
      injection h with h
      exact ⟨fun he => absurd he h1, fun _ _ => h.symm, fun _ hni _ => absurd h2 hni,
        fun _ hni _ => absurd h2 hni⟩
    · rw [if_neg h2] at h
      cases h3 : is_thirdparty env (py_split_head dotted) with
      | error e => rw [h3] at h; cases h
      | ok b =>
        rw [h3] at h
        cases b with
        | true =>
          simp only [Except.ok.injEq] at h
          refine ⟨fun he => absurd he h1, fun _ hi => absurd hi h2, fun _ _ _ => h.symm,
            fun _ _ hfalse => ?_⟩
          simp at hfalse
        | false =>
          simp only [Except.ok.injEq] at h
          refine ⟨fun he => absurd he h1, fun _ hi => absurd hi h2, fun _ _ htrue => ?_,
            fun _ _ _ => h.symm⟩
          simp at htrue

/-- The rank fields of a successfully built key come from `rank_of`
applied to the node's classification module name. -/
theorem node_sort_key_rank (env : Env) (n : Node) (mo : String) (k : Key)
    (hname : classify_name n = some mo) (hkey : node_sort_key env n = .ok k) :
    rank_of env mo = .ok (k.future, k.stdlib, k.thirdparty) := by
  cases n with
  | imp names =>
    cases hh : names.head? with
    | none => simp [node_sort_key, hh] at hkey
    | some nm =>
      have hmo : nm.name = mo := by simpa [classify_name, hh] using hname
      simp only [node_sort_key, hh] at hkey
      cases hr : rank_of env nm.name with
      | error e => rw [hr] at hkey; cases hkey
      | ok r =>
        obtain ⟨f, s, t⟩ := r
        rw [hr] at hkey
        simp only [Except.ok.injEq] at hkey
        rw [← hmo, hr, ← hkey]
  | impFrom module names level =>
    cases module with
    | none => exact absurd hkey (by simp [node_sort_key])
    | some m =>
      have hmo : m = mo := by simpa [classify_name] using hname
      simp only [node_sort_key] at hkey
      cases hr : rank_of env m with
      | error e => rw [hr] at hkey; cases hkey
      | ok r =>
        obtain ⟨f, s, t⟩ := r
        rw [hr] at hkey
        simp only [Except.ok.injEq] at hkey
        rw [← hmo, hr, ← hkey]

/-- Claim C5: classification looks only at the root segment (the part of
the module name before the first dot) and proceeds future → stdlib →
third-party probe → Other, and the stdlib set contains the built-in
module names and the fixed allowlist entries `itertools` and `operator`. -/
theorem C5_classification_cascade (env : Env) (n : Node) (mo : String) (k : Key)
    (hname : classify_name n = some mo) (hkey : node_sort_key env n = .ok k) :
    ((py_split_head mo = "__future__" → key_triple k = (0, 1, 1))
     ∧ (py_split_head mo ≠ "__future__" → py_split_head mo ∈ stdlibs env →
         key_triple k = (1, 0, 1))
     ∧ (py_split_head mo ≠ "__future__" → py_split_head mo ∉ stdlibs env →
         is_thirdparty env (py_split_head mo) = .ok true → key_triple k = (1, 1, 0))
     ∧ (py_split_head mo ≠ "__future__" → py_split_head mo ∉ stdlibs env →
         is_thirdparty env (py_split_head mo) = .ok false → key_triple k = (1, 1, 1)))
    ∧ ("itertools" ∈ stdlibs env ∧ "operator" ∈ stdlibs env
       ∧ ∀ b ∈ env.builtin_module_names, b ∈ stdlibs env) := by
  constructor
  · have hr := node_sort_key_rank env n mo k hname hkey
    have hc := rank_of_char env mo k.future k.stdlib k.thirdparty hr
    exact hc
  · exact ⟨by simp [stdlibs], by simp [stdlibs], fun b hb => by simp [stdlibs, hb]⟩

/-- Witness for C5: in `envStd` the plain import of `os.path` is
classified by its root `os`, found in the stdlib set, and ranked
`(1, 0, 1)`. -/
theorem C5_classification_cascade_witness :
    (classify_name (Node.imp [⟨"os.path", none⟩]) = some "os.path"
      ∧ node_sort_key envStd (Node.imp [⟨"os.path", none⟩])
          = .ok ⟨1, 0, 1, 0, [some "os.path", none], none⟩
      ∧ py_split_head "os.path" ≠ "__future__"
      ∧ py_split_head "os.path" ∈ stdlibs envStd)
    ∧ key_triple ⟨1, 0, 1, 0, [some "os.path", none], none⟩ = (1, 0, 1) :=
  ⟨⟨by decide, by decide, by decide, by decide⟩,
   (C5_classification_cascade envStd (Node.imp [⟨"os.path", none⟩]) "os.path"
      ⟨1, 0, 1, 0, [some "os.path", none], none⟩ (by decide) (by decide)).1.2.1
     (by decide) (by decide)⟩

/-! ### Claim C6 -/

/-- The printing loop with a recorded previous key behaves as the
claim-side separator description. -/
theorem render_loop_tail (pk : Key) (l : List (Key × Node)) :
    render_loop (some pk) l = render_spec_tail pk l := by
  induction l generalizing pk with
  | nil => rfl
  | cons x rest ih =>
    obtain ⟨k, n⟩ := x
    simp [render_loop, render_spec_tail, ih]

/-- Claim C6: the renderer emits exactly one blank line between two
consecutive declarations iff their provenance triples differ, none within
a group, and no blank line before the first declaration — its output
coincides with the claim-side description `render_spec`. -/
theorem C6_group_separation (l : List (Key × Node)) :
    render_loop none l = render_spec l := by
  cases l with
  | nil => rfl
  | cons x rest =>
    obtain ⟨k, n⟩ := x
    simp [render_loop, render_spec, render_loop_tail]

/-! ### Claim C10 -/

/-- Folding the visitor over statements holding no top-level
imported-module declaration leaves the accumulator unchanged. -/
theorem collect_no_toplevel (stmts : List PyStmt) (s0 : ImpSorterState)
    (h : ∀ st ∈ stmts, is_toplevel_import st = false) :
    stmts.foldl visit s0 = s0 := by
  induction stmts generalizing s0 with
  | nil => rfl
  | cons st rest ih =>
    have h1 := h st (by simp)
    have hv : visit s0 st = s0 := by
      cases st with
      | importStmt names col =>
        simp only [is_toplevel_import, decide_eq_false_iff_not] at h1
        simp [visit, h1]
      | importFromStmt m names lv col =>
        simp only [is_toplevel_import, decide_eq_false_iff_not] at h1
        simp [visit, h1]
      | otherStmt => rfl
    rw [List.foldl_cons, hv]
    exact ih s0 (fun st' hst' => h st' (by simp [hst']))

/-- Claim C10: when the visited tree contains no top-level import or
from-import statement, the run succeeds and prints nothing at all: no
lines, hence an empty output text without even a trailing newline. -/
theorem C10_empty_output (env : Env) (addr : Node → Nat) (stmts : List PyStmt)
    (h : ∀ st ∈ stmts, is_toplevel_import st = false) :
    write_sorted env addr (collect stmts) = .ok []
    ∧ (write_sorted env addr (collect stmts)).map output_text = .ok "" := by
  have hc : collect stmts = initState := collect_no_toplevel stmts initState h
  rw [hc]
  exact ⟨rfl, rfl⟩

/-- Witness for C10: a tree holding one non-import statement and one
nested (column 4) module declaration renders to the empty output. -/
theorem C10_empty_output_witness :
    (∀ st ∈ [PyStmt.otherStmt, PyStmt.importStmt [⟨"os", none⟩] 4],
      is_toplevel_import st = false)
    ∧ write_sorted envStd addrZero
        (collect [PyStmt.otherStmt, PyStmt.importStmt [⟨"os", none⟩] 4]) = .ok []
    ∧ (write_sorted envStd addrZero
        (collect [PyStmt.otherStmt, PyStmt.importStmt [⟨"os", none⟩] 4])).map output_text
        = .ok "" :=
  ⟨by decide,
   (C10_empty_output envStd addrZero _ (by decide)).1,
   (C10_empty_output envStd addrZero _ (by decide)).2⟩

/-! ### What one visitor pass accumulates

`plain_pairs`, `from_keys_of` and `from_pairs` read off a statement list
the `(name, alias)` pairs, dictionary keys and per-key pairs that the
visitor records for it. -/

/-- The `(name, alias)` pairs of the top-level plain imports. -/
def plain_pairs : List PyStmt → List NamePair
  | [] => []
  | st :: rest =>
    (match st with
     | .importStmt names col =>
       if col = 0 then names.map fun nm => (nm.name, nm.asname) else []
     | _ => []) ++ plain_pairs rest

/-- The `(level, module)` keys of the top-level from-imports. -/
def from_keys_of : List PyStmt → List FromKey
  | [] => []
  | st :: rest =>
    (match st with
     | .importFromStmt m _ lv col => if col = 0 then [(lv, m)] else []
     | _ => []) ++ from_keys_of rest

/-- The `(name, alias)` pairs the top-level from-imports contribute to
one `(level, module)` key. -/
def from_pairs (k : FromKey) : List PyStmt → List NamePair
  | [] => []
  | st :: rest =>
    (match st with
     | .importFromStmt m names lv col =>
       if col = 0 ∧ (lv, m) = k then names.map fun nm => (nm.name, nm.asname)
       else []
     | _ => []) ++ from_pairs k rest

/-- Appending one fresh element keeps a list duplicate free. -/
theorem nodup_append_singleton {α : Type} (l : List α) (a : α) (h : l.Nodup)
    (hm : a ∉ l) : (l ++ [a]).Nodup := by
  rw [List.nodup_append]
  refine ⟨h, List.nodup_singleton a, ?_⟩
  intro x hx hxa
  rw [List.mem_singleton] at hxa
  exact hm (hxa ▸ hx)

/-- Membership in a Python-set insertion. -/
theorem mem_set_add {α : Type} [DecidableEq α] (l : List α) (a b : α) :
    b ∈ set_add l a ↔ b ∈ l ∨ b = a := by
  unfold set_add
  by_cases h : a ∈ l
  · rw [if_pos h]
    constructor
    · exact Or.inl
    · rintro (hb | rfl) <;> assumption
  · rw [if_neg h]
    simp

/-- A Python-set insertion keeps the list duplicate free. -/
theorem nodup_set_add {α : Type} [DecidableEq α] (l : List α) (a : α)
    (h : l.Nodup) : (set_add l a).Nodup := by
  unfold set_add
  by_cases hm : a ∈ l
  · rwa [if_pos hm]
  · rw [if_neg hm]
    exact nodup_append_singleton l a h hm

/-- Membership in a Python-set bulk update. -/
theorem mem_set_update {α : Type} [DecidableEq α] (l new : List α) (b : α) :
    b ∈ set_update l new ↔ b ∈ l ∨ b ∈ new := by
  induction new generalizing l with
  | nil => simp [set_update]
  | cons x rest ih =>
    unfold set_update at ih ⊢
    rw [List.foldl_cons, ih, mem_set_add]
    simp only [List.mem_cons]
    tauto

/-- A Python-set bulk update keeps the list duplicate free. -/
theorem nodup_set_update {α : Type} [DecidableEq α] (l new : List α)
    (h : l.Nodup) : (set_update l new).Nodup := by
  induction new generalizing l with
  | nil => exact h
  | cons x rest ih =>
    unfold set_update at ih ⊢
    rw [List.foldl_cons]
    exact ih _ (nodup_set_add l x h)

/-- The keys after a defaultdict update: unchanged when the key existed,
extended by it at the end otherwise. -/
theorem keys_dict_update (m : List (FromKey × List NamePair)) (k : FromKey)
    (ps : List NamePair) :
    (dict_update m k ps).map Prod.fst
      = if k ∈ m.map Prod.fst then m.map Prod.fst else m.map Prod.fst ++ [k] := by
  induction m with
  | nil => simp [dict_update]
  | cons e rest ih =>
    obtain ⟨k0, v0⟩ := e
    by_cases h : k0 = k
    · simp [dict_update, h]
    · simp only [dict_update, if_neg h, List.map_cons, ih]
      have hk : k ∈ k0 :: rest.map Prod.fst ↔ k ∈ rest.map Prod.fst := by
        simp [List.mem_cons, fun hx : k = k0 => h hx.symm]
        tauto
      by_cases hm : k ∈ rest.map Prod.fst
      · simp [hm, hk]
      · simp [hm, hk]

/-- A defaultdict update keeps the keys duplicate free. -/
theorem nodup_keys_dict_update (m : List (FromKey × List NamePair)) (k : FromKey)
    (ps : List NamePair) (h : (m.map Prod.fst).Nodup) :
    ((dict_update m k ps).map Prod.fst).Nodup := by
  rw [keys_dict_update]
  by_cases hm : k ∈ m.map Prod.fst
  · rwa [if_pos hm]
  · rw [if_neg hm]
    exact nodup_append_singleton _ k h hm

/-- Reading any key after a defaultdict update. -/
theorem dict_get_dict_update (m : List (FromKey × List NamePair))
    (k k' : FromKey) (ps : List NamePair) :
    dict_get (dict_update m k ps) k'
      = if k' = k then set_update (dict_get m k) ps else dict_get m k' := by
  induction m with
  | nil =>
    by_cases h : k' = k
    · simp [dict_update, dict_get, h]
    · have h2 : ¬k = k' := fun hx => h hx.symm
      simp [dict_update, dict_get, h, h2]
  | cons e rest ih =>
    obtain ⟨k0, v0⟩ := e
    by_cases h0 : k0 = k
    · subst h0
      by_cases h' : k' = k0
      · simp [dict_update, dict_get, h']
      · have h2 : ¬k0 = k' := fun hx => h' hx.symm
        simp [dict_update, dict_get, h', h2]
    · simp only [dict_update, if_neg h0]
      by_cases h' : k0 = k'
      · have hk'k : k' ≠ k := fun hx => h0 (h'.trans hx)
        simp [dict_get, h', if_neg hk'k]
      · simp only [dict_get, if_neg h']
        rw [ih]
        by_cases hkk : k' = k
        · subst hkk
          simp [dict_get, if_neg h']
        · simp [dict_get, h', hkk]

/-- Key membership after a defaultdict update. -/
theorem mem_keys_dict_update (m : List (FromKey × List NamePair)) (k : FromKey)
    (ps : List NamePair) (k' : FromKey) :
    k' ∈ (dict_update m k ps).map Prod.fst ↔ k' ∈ m.map Prod.fst ∨ k' = k := by
  rw [keys_dict_update]
  by_cases hm : k ∈ m.map Prod.fst
  · rw [if_pos hm]
    constructor
    · exact Or.inl
    · rintro (h | rfl) <;> assumption
  · rw [if_neg hm]
    simp

/-- The imports set a visitor pass accumulates. -/
theorem collect_imports_mem (stmts : List PyStmt) (s0 : ImpSorterState)
    (p : NamePair) :
    p ∈ (stmts.foldl visit s0).imports
      ↔ p ∈ s0.imports ∨ p ∈ plain_pairs stmts := by
  induction stmts generalizing s0 with
  | nil => simp [plain_pairs]
  | cons st rest ih =>
    rw [List.foldl_cons, ih]
    cases st with
    | importStmt names col =>
      by_cases hc : col = 0
      · subst hc
        have hv : (visit s0 (PyStmt.importStmt names 0)).imports
            = set_update s0.imports (names.map fun nm => (nm.name, nm.asname)) := by
          simp [visit]
        rw [hv, mem_set_update]
        simp only [plain_pairs, List.mem_append, if_pos rfl]
        tauto
      · have hv : (visit s0 (PyStmt.importStmt names col)).imports
            = s0.imports := by
          simp [visit, hc]
        rw [hv]
        simp only [plain_pairs, if_neg hc, List.nil_append]
    | importFromStmt m names lv col =>
      have hv : (visit s0 (PyStmt.importFromStmt m names lv col)).imports
          = s0.imports := by
        by_cases hc : col = 0 <;> simp [visit, hc]
      rw [hv]
      simp only [plain_pairs, List.nil_append]
    | otherStmt =>
      rw [show visit s0 PyStmt.otherStmt = s0 from rfl]
      simp only [plain_pairs, List.nil_append]

/-- A visitor pass keeps the imports set duplicate free. -/
theorem collect_imports_nodup (stmts : List PyStmt) (s0 : ImpSorterState)
    (h : s0.imports.Nodup) : (stmts.foldl visit s0).imports.Nodup := by
  induction stmts generalizing s0 with
  | nil => exact h
  | cons st rest ih =>
    rw [List.foldl_cons]
    apply ih
    cases st with
    | importStmt names col =>
      by_cases hc : col = 0
      · subst hc
        have hv : (visit s0 (PyStmt.importStmt names 0)).imports
            = set_update s0.imports (names.map fun nm => (nm.name, nm.asname)) := by
          simp [visit]
        rw [hv]
        exact nodup_set_update _ _ h
      · have hv : (visit s0 (PyStmt.importStmt names col)).imports
            = s0.imports := by
          simp [visit, hc]
        rwa [hv]
    | importFromStmt m names lv col =>
      have hv : (visit s0 (PyStmt.importFromStmt m names lv col)).imports
          = s0.imports := by
        by_cases hc : col = 0 <;> simp [visit, hc]
      rwa [hv]
    | otherStmt => exact h

/-- The dictionary keys a visitor pass accumulates. -/
theorem collect_from_keys_mem (stmts : List PyStmt) (s0 : ImpSorterState)
    (k : FromKey) :
    k ∈ (stmts.foldl visit s0).from_imports.map Prod.fst
      ↔ k ∈ s0.from_imports.map Prod.fst ∨ k ∈ from_keys_of stmts := by
  induction stmts generalizing s0 with
  | nil => simp [from_keys_of]
  | cons st rest ih =>
    rw [List.foldl_cons, ih]
    cases st with
    | importFromStmt m names lv col =>
      by_cases hc : col = 0
      · subst hc
        have hv : (visit s0 (PyStmt.importFromStmt m names lv 0)).from_imports
            = dict_update s0.from_imports (lv, m)
                (names.map fun nm => (nm.name, nm.asname)) := by
          simp [visit]
        rw [hv, mem_keys_dict_update]
        simp only [from_keys_of, List.mem_append]
        simp
        tauto
      · have hv : (visit s0 (PyStmt.importFromStmt m names lv col)).from_imports
            = s0.from_imports := by
          simp [visit, hc]
        rw [hv]
        simp only [from_keys_of, if_neg hc, List.nil_append]
    | importStmt names col =>
      have hv : (visit s0 (PyStmt.importStmt names col)).from_imports
          = s0.from_imports := by
        by_cases hc : col = 0 <;> simp [visit, hc]
      rw [hv]
      simp only [from_keys_of, List.nil_append]
    | otherStmt =>
      rw [show visit s0 PyStmt.otherStmt = s0 from rfl]
      simp only [from_keys_of, List.nil_append]

/-- A visitor pass keeps the dictionary keys duplicate free. -/
theorem collect_from_keys_nodup (stmts : List PyStmt) (s0 : ImpSorterState)
    (h : (s0.from_imports.map Prod.fst).Nodup) :
    ((stmts.foldl visit s0).from_imports.map Prod.fst).Nodup := by
  induction stmts generalizing s0 with
  | nil => exact h
  | cons st rest ih =>
    rw [List.foldl_cons]
    apply ih
    cases st with
    | importFromStmt m names lv col =>
      by_cases hc : col = 0
      · subst hc
        have hv : (visit s0 (PyStmt.importFromStmt m names lv 0)).from_imports
            = dict_update s0.from_imports (lv, m)
                (names.map fun nm => (nm.name, nm.asname)) := by
          simp [visit]
        rw [hv]
        exact nodup_keys_dict_update _ _ _ h
      · have hv : (visit s0 (PyStmt.importFromStmt m names lv col)).from_imports
            = s0.from_imports := by
          simp [visit, hc]
        rwa [hv]
    | importStmt names col =>
      have hv : (visit s0 (PyStmt.importStmt names col)).from_imports
          = s0.from_imports := by
        by_cases hc : col = 0 <;> simp [visit, hc]
      rwa [hv]
    | otherStmt => exact h

/-- The per-key name sets a visitor pass accumulates. -/
theorem collect_from_get_mem (stmts : List PyStmt) (s0 : ImpSorterState)
    (k : FromKey) (p : NamePair) :
    p ∈ dict_get (stmts.foldl visit s0).from_imports k
      ↔ p ∈ dict_get s0.from_imports k ∨ p ∈ from_pairs k stmts := by
  induction stmts generalizing s0 with
  | nil => simp [from_pairs]
  | cons st rest ih =>
    rw [List.foldl_cons, ih]
    cases st with
    | importFromStmt m names lv col =>
      by_cases hc : col = 0
      · subst hc
        have hv : (visit s0 (PyStmt.importFromStmt m names lv 0)).from_imports
            = dict_update s0.from_imports (lv, m)
                (names.map fun nm => (nm.name, nm.asname)) := by
          simp [visit]
        rw [hv, dict_get_dict_update]
        by_cases hk : k = (lv, m)
        · rw [if_pos hk, mem_set_update]
          have hcond : (0 : Nat) = 0 ∧ (lv, m) = k := ⟨rfl, hk.symm⟩
          simp only [from_pairs, List.mem_append, if_pos hcond, hk]
          tauto
        · rw [if_neg hk]
          have hx : ¬(lv, m) = k := fun hy => hk hy.symm
          simp only [from_pairs]
          simp [hx]
      · have hv : (visit s0 (PyStmt.importFromStmt m names lv col)).from_imports
            = s0.from_imports := by
          simp [visit, hc]
        rw [hv]
        simp only [from_pairs]
        simp [hc]
    | importStmt names col =>
      have hv : (visit s0 (PyStmt.importStmt names col)).from_imports
          = s0.from_imports := by
        by_cases hc : col = 0 <;> simp [visit, hc]
      rw [hv]
      simp only [from_pairs, List.nil_append]
    | otherStmt =>
      rw [show visit s0 PyStmt.otherStmt = s0 from rfl]
      simp only [from_pairs, List.nil_append]

/-- A visitor pass keeps every per-key name set duplicate free. -/
theorem collect_from_get_nodup (stmts : List PyStmt) (s0 : ImpSorterState)
    (h : ∀ k, (dict_get s0.from_imports k).Nodup) (k : FromKey) :
    (dict_get (stmts.foldl visit s0).from_imports k).Nodup := by
  induction stmts generalizing s0 with
  | nil => exact h k
  | cons st rest ih =>
    rw [List.foldl_cons]
    apply ih
    intro k'
    cases st with
    | importFromStmt m names lv col =>
      by_cases hc : col = 0
      · subst hc
        have hv : (visit s0 (PyStmt.importFromStmt m names lv 0)).from_imports
            = dict_update s0.from_imports (lv, m)
                (names.map fun nm => (nm.name, nm.asname)) := by
          simp [visit]
        rw [hv, dict_get_dict_update]
        by_cases hk : k' = (lv, m)
        · rw [if_pos hk]
          exact nodup_set_update _ _ (h _)
        · rw [if_neg hk]
          exact h k'
      · have hv : (visit s0 (PyStmt.importFromStmt m names lv col)).from_imports
            = s0.from_imports := by
          simp [visit, hc]
        rw [hv]
        exact h k'
    | importStmt names col =>
      have hv : (visit s0 (PyStmt.importStmt names col)).from_imports
          = s0.from_imports := by
        by_cases hc : col = 0 <;> simp [visit, hc]
      rw [hv]
      exact h k'
    | otherStmt => exact h k'

/-! ### The sorted order: totality, transitivity, and uniqueness under
distinct keys -/

/-- Unfolding of the tuple comparison on `(key, node)` pairs: key strictly
below, or keys exactly equal and the identity numbering deciding. -/
theorem pairRel_iff (addr : Node → Nat) (a b : Key × Node) :
    pairRel addr a b ↔ keyCmp a.1 b.1 = .lt ∨ (a.1 = b.1 ∧ addr a.2 ≤ addr b.2) := by
  unfold pairRel pairLeB
  cases h : keyCmp a.1 b.1 with
  | lt => simp [h]
  | eq => simp [h, Nat.ble_eq, (lawful_keyCmp.eq_iff a.1 b.1).mp h]
  | gt =>
    have hne : a.1 ≠ b.1 := lawful_keyCmp.ne_of_gt h
    simp [h, hne]

instance (addr : Node → Nat) : IsTotal (Key × Node) (pairRel addr) := by
  constructor
  intro a b
  rw [pairRel_iff, pairRel_iff]
  cases h : keyCmp a.1 b.1 with
  | lt => exact Or.inl (Or.inl rfl)
  | gt => exact Or.inr (Or.inl ((lawful_keyCmp.gt_iff a.1 b.1).mp h))
  | eq =>
    have he : a.1 = b.1 := (lawful_keyCmp.eq_iff a.1 b.1).mp h
    rcases Nat.le_total (addr a.2) (addr b.2) with hle | hle
    · exact Or.inl (Or.inr ⟨he, hle⟩)
    · exact Or.inr (Or.inr ⟨he.symm, hle⟩)

instance (addr : Node → Nat) : IsTrans (Key × Node) (pairRel addr) := by
  constructor
  intro a b c hab hbc
  rw [pairRel_iff] at hab hbc ⊢
  rcases hab with hab | ⟨hab, hab'⟩ <;> rcases hbc with hbc | ⟨hbc, hbc'⟩
  · exact Or.inl (lawful_keyCmp.lt_trans hab hbc)
  · exact Or.inl (hbc ▸ hab)
  · exact Or.inl (hab ▸ hbc)
  · exact Or.inr ⟨hab.trans hbc, Nat.le_trans hab' hbc'⟩

/-- The strict part of the order: key strictly below. -/
def keyLt (a b : Key × Node) : Prop := keyCmp a.1 b.1 = .lt

instance : IsAntisymm (Key × Node) keyLt :=
  ⟨fun _ _ hab hba => (lawful_keyCmp.lt_asymm hab hba).elim⟩

/-- A list sorted by the runtime comparison whose keys are pairwise
distinct is sorted by the strict key order. -/
theorem sorted_keyLt_of (addr : Node → Nat) (l : List (Key × Node))
    (hs : l.Sorted (pairRel addr)) (hnd : (l.map Prod.fst).Nodup) :
    l.Sorted keyLt := by
  have hpw : l.Pairwise fun a b => a.1 ≠ b.1 := (List.pairwise_map).mp hnd
  refine (hs.and hpw).imp ?_
  rintro a b ⟨hrel, hne⟩
  rw [pairRel_iff] at hrel
  rcases hrel with hlt | ⟨heq, _⟩
  · exact hlt
  · exact absurd heq hne

/-- Two sortings of permuted inputs agree whenever the keys involved are
pairwise distinct, whatever identity numberings broke the (absent)
ties. -/
theorem sorted_pairs_unique (addr addr' : Node → Nat) (l1 l2 : List (Key × Node))
    (hperm : l1.Perm l2) (hnd : (l1.map Prod.fst).Nodup)
    (hs1 : l1.Sorted (pairRel addr)) (hs2 : l2.Sorted (pairRel addr')) :
    l1 = l2 := by
  have hnd2 : (l2.map Prod.fst).Nodup := ((hperm.map Prod.fst).nodup_iff).mp hnd
  exact List.eq_of_perm_of_sorted hperm
    (sorted_keyLt_of addr l1 hs1 hnd) (sorted_keyLt_of addr' l2 hs2 hnd2)

/-- The final sort does not depend on the identity numbering when all
keys are distinct. -/
theorem sort_pairs_deterministic (addr addr' : Node → Nat)
    (ns : List (Key × Node)) (hnd : (ns.map Prod.fst).Nodup) :
    sort_pairs addr ns = sort_pairs addr' ns := by
  have p1 : sort_pairs addr ns |>.Perm ns := List.perm_insertionSort _ ns
  have p2 : sort_pairs addr' ns |>.Perm ns := List.perm_insertionSort _ ns
  have hnd1 : ((sort_pairs addr ns).map Prod.fst).Nodup :=
    ((p1.map Prod.fst).nodup_iff).mpr hnd
  exact sorted_pairs_unique addr addr' _ _ (p1.trans p2.symm) hnd1
    (List.sorted_insertionSort _ ns) (List.sorted_insertionSort _ ns)

/-! ### Claim C8 -/

/-- Claim C8 counterexample: two runs on the same input in the same
environment that differ only in where the runtime allocated the two
regenerated nodes (their identity comparison breaks the tie between the
exactly equal sort keys of `from os import path` and
`from os import path as p`) produce different bytes. -/
theorem C8_counterexample :
    write_sorted envStd addrTieA stateTiedKeys
      = .ok ["from os import path", "from os import path as p"]
    ∧ write_sorted envStd addrTieB stateTiedKeys
      = .ok ["from os import path as p", "from os import path"]
    ∧ write_sorted envStd addrTieA stateTiedKeys
        ≠ write_sorted envStd addrTieB stateTiedKeys := by decide

/-- A successful run renders the sorted regenerated nodes. -/
theorem write_sorted_ok (env : Env) (addr : Node → Nat) (s : ImpSorterState)
    (ns : List (Key × Node)) (h : new_nodes env s = .ok ns) :
    write_sorted env addr s = .ok (render_loop none (sort_pairs addr ns)) := by
  unfold write_sorted
  rw [h]

/-- Claim C8 as amended: the transformation is deterministic whenever all
sort keys are pairwise distinct — the output is then independent of the
identity numbering of the nodes, the only run-to-run varying input. -/
theorem C8_deterministic_distinct_keys (env : Env) (addr addr' : Node → Nat)
    (s : ImpSorterState) (ns : List (Key × Node))
    (h : new_nodes env s = .ok ns) (hnd : (ns.map Prod.fst).Nodup) :
    write_sorted env addr s = write_sorted env addr' s := by
  rw [write_sorted_ok env addr s ns h, write_sorted_ok env addr' s ns h,
    sort_pairs_deterministic addr addr' ns hnd]

/-- The keyed node list `new_nodes` produces for `stateTwoFromOs`. -/
def nsTwoFromOs : List (Key × Node) :=
  [(⟨1, 0, 1, 1, [some "os"], some ["getcwd"]⟩,
    .impFrom (some "os") [⟨"getcwd", none⟩] 0),
   (⟨1, 0, 1, 1, [some "os"], some ["path"]⟩,
    .impFrom (some "os") [⟨"path", none⟩] 0)]

/-- Witness for C8: on two deduplicated `os` from-imports the keys are
distinct, and the two identity numberings that flipped the tied-key run
agree here. -/
theorem C8_deterministic_distinct_keys_witness :
    (new_nodes envStd stateTwoFromOs = .ok nsTwoFromOs
     ∧ (nsTwoFromOs.map Prod.fst).Nodup)
    ∧ write_sorted envStd addrTieA stateTwoFromOs
        = write_sorted envStd addrTieB stateTwoFromOs :=
  ⟨⟨by decide, by decide⟩,
   C8_deterministic_distinct_keys envStd addrTieA addrTieB stateTwoFromOs
     nsTwoFromOs (by decide) (by decide)⟩

/-! ### Structure of the regenerated node list -/

/-- A successful `attach_keys` pairs every node with its key and keeps the
node list itself unchanged. -/
theorem attach_keys_of_ok (env : Env) (l : List Node) (r : List (Key × Node))
    (h : attach_keys env l = .ok r) :
    r = l.map (fun n => (key_of env n, n)) := by
  induction l generalizing r with
  | nil =>
    simp only [attach_keys] at h
    injection h with h
    rw [← h]
    rfl
  | cons n rest ih =>
    simp only [attach_keys] at h
    cases hk : node_sort_key env n with
    | error e => rw [hk] at h; cases h
    | ok k =>
      rw [hk] at h
      cases hr : attach_keys env rest with
      | error e => rw [hr] at h; cases h
      | ok ps =>
        rw [hr] at h
        injection h with h
        rw [← h, List.map_cons, ih ps hr]
        have : key_of env n = k := by unfold key_of; rw [hk]
        rw [this]

/-- Membership in `insertionSort` is membership in the list. -/
theorem mem_insertionSort_np (l : List NamePair) (q : NamePair) :
    q ∈ l.insertionSort npLe ↔ q ∈ l :=
  (List.perm_insertionSort npLe l).mem_iff

/-- The regenerated nodes are exactly: one single-alias from-import per
collected `(level, module)` name, and one single-alias plain import per
member of the imports set. -/
theorem mem_raw_nodes (s : ImpSorterState) (n : Node) :
    n ∈ raw_nodes s ↔
      (∃ kv ∈ s.from_imports, ∃ q ∈ kv.2,
        n = Node.impFrom kv.1.2 [⟨q.1, q.2⟩] kv.1.1)
      ∨ ∃ q ∈ s.imports, n = Node.imp [⟨q.1, q.2⟩] := by
  unfold raw_nodes
  simp only [List.mem_append, List.mem_flatMap, List.mem_map,
    mem_insertionSort_np, eq_comm]

/-- Reading the unique entry of a key present in a dictionary with
duplicate-free keys. -/
theorem dict_get_of_mem (m : List (FromKey × List NamePair))
    (hk : (m.map Prod.fst).Nodup) (kv : FromKey × List NamePair) (h : kv ∈ m) :
    dict_get m kv.1 = kv.2 := by
  induction m with
  | nil => cases h
  | cons e rest ih =>
    obtain ⟨k0, v0⟩ := e
    rw [List.map_cons, List.nodup_cons] at hk
    rcases List.mem_cons.mp h with he | he
    · rw [← he]
      simp [dict_get]
    · have hne : k0 ≠ kv.1 := by
        intro hx
        apply hk.1
        rw [hx]
        exact List.mem_map.mpr ⟨kv, he, rfl⟩
      simp only [dict_get]
      rw [if_neg hne]
      exact ih hk.2 he

/-- A key absent from the dictionary reads as the empty set. -/
theorem dict_get_not_mem (m : List (FromKey × List NamePair)) (k : FromKey)
    (h : k ∉ m.map Prod.fst) : dict_get m k = [] := by
  induction m with
  | nil => rfl
  | cons e rest ih =>
    obtain ⟨k0, v0⟩ := e
    simp only [List.map_cons, List.mem_cons] at h
    push_neg at h
    simp only [dict_get]
    rw [if_neg (fun hx => h.1 hx.symm)]
    exact ih h.2

/-- A key present in the dictionary owns the entry `dict_get` reads. -/
theorem mem_of_dict_get (m : List (FromKey × List NamePair)) (k : FromKey)
    (h : k ∈ m.map Prod.fst) : (k, dict_get m k) ∈ m := by
  induction m with
  | nil => cases h
  | cons e rest ih =>
    obtain ⟨k0, v0⟩ := e
    by_cases he : k0 = k
    · simp [dict_get, he]
    · simp only [List.map_cons, List.mem_cons] at h
      rcases h with h | h
      · exact absurd h.symm he
      · simp only [dict_get, if_neg he]
        exact List.mem_cons_of_mem _ (ih h)

/-- How many of one entry's regenerated nodes are from-imports of a given
`(level, module)` pair: all of them for the entry's own pair, none
otherwise. -/
theorem countP_entry (lv : Nat) (mo : Option String) (k0 : FromKey)
    (v0 : List NamePair) :
    ((v0.insertionSort npLe).map fun p =>
        Node.impFrom k0.2 [⟨p.1, p.2⟩] k0.1).countP (is_from_node lv mo)
      = if k0 = (lv, mo) then v0.length else 0 := by
  by_cases h : k0 = (lv, mo)
  · rw [if_pos h]
    have h1 : k0.1 = lv := by rw [h]
    have h2 : k0.2 = mo := by rw [h]
    have hall : ∀ n ∈ (v0.insertionSort npLe).map fun p =>
        Node.impFrom k0.2 [⟨p.1, p.2⟩] k0.1, is_from_node lv mo n := by
      intro n hn
      obtain ⟨p, _, rfl⟩ := List.mem_map.mp hn
      simp [is_from_node, h1, h2]
    rw [List.countP_eq_length.mpr hall, List.length_map,
      (List.perm_insertionSort npLe v0).length_eq]
  · rw [if_neg h]
    apply List.countP_eq_zero.mpr
    intro n hn
    obtain ⟨p, _, rfl⟩ := List.mem_map.mp hn
    simp only [is_from_node, Bool.and_eq_true, decide_eq_true_eq]
    rintro ⟨h2, h1⟩
    exact h (Prod.ext h1 h2)

/-- The from-import part of `raw_nodes` contains exactly one node per
deduplicated name collected for a given `(level, module)` pair. -/
theorem countP_raw_from (m : List (FromKey × List NamePair)) (lv : Nat)
    (mo : Option String) (hk : (m.map Prod.fst).Nodup) :
    (m.flatMap fun kv => (kv.2.insertionSort npLe).map fun p =>
        Node.impFrom kv.1.2 [⟨p.1, p.2⟩] kv.1.1).countP (is_from_node lv mo)
      = (dict_get m (lv, mo)).length := by
  induction m with
  | nil => rfl
  | cons e rest ih =>
    obtain ⟨k0, v0⟩ := e
    rw [List.map_cons, List.nodup_cons] at hk
    simp only [List.flatMap_cons, List.countP_append]
    rw [countP_entry, ih hk.2]
    by_cases h : k0 = (lv, mo)
    · have habs : (lv, mo) ∉ rest.map Prod.fst := h ▸ hk.1
      rw [dict_get_not_mem rest _ habs]
      simp [dict_get, h]
    · simp [dict_get, h]

/-- A rendered statement line is never the blank separator line. -/
theorem render_stmt_ne_empty (n : Node) : render_stmt n ≠ "" := by
  cases n with
  | imp names =>
    intro hx
    simp only [render_stmt] at hx
    have hl := congrArg String.length hx
    rw [String.length_append] at hl
    have h7 : "import ".length = 7 := rfl
    have h0 : "".length = 0 := rfl
    rw [h7, h0] at hl
    omega
  | impFrom m names lv =>
    intro hx
    simp only [render_stmt] at hx
    have hl := congrArg String.length hx
    rw [String.length_append, String.length_append, String.length_append,
      String.length_append] at hl
    have h5 : "from ".length = 5 := rfl
    have h0 : "".length = 0 := rfl
    rw [h5, h0] at hl
    omega

/-- Dropping the blank separator lines from the rendered output leaves
exactly one line per sorted declaration, in order. -/
theorem render_loop_filter (pkey : Option Key) (l : List (Key × Node)) :
    (render_loop pkey l).filter (fun x => x ≠ "")
      = l.map fun kn => render_stmt kn.2 := by
  induction l generalizing pkey with
  | nil => cases pkey <;> rfl
  | cons x rest ih =>
    obtain ⟨k, n⟩ := x
    have hne := render_stmt_ne_empty n
    cases pkey with
    | none =>
      simp only [render_loop, List.nil_append]
      rw [List.filter_cons_of_pos (by simp [hne]), ih (some k), List.map_cons]
    | some pk =>
      by_cases hx : key_triple k ≠ key_triple pk
      · simp only [render_loop, if_pos hx, List.cons_append, List.nil_append]
        rw [List.filter_cons_of_neg (by simp),
          List.filter_cons_of_pos (by simp [hne]), ih (some k), List.map_cons]
      · simp only [render_loop, if_neg hx, List.nil_append]
        rw [List.filter_cons_of_pos (by simp [hne]), ih (some k), List.map_cons]

/-! ### Claim C1, amended theorem -/

/-- Claim C1 as amended: for each `(level, module)` pair the output
contains one single-name from-import statement per name of the
deduplicated union of the collected `(name, alias)` pairs — not one
comma-joined statement.  Conjuncts: (1) the regenerated declarations hold
exactly `|from_imports[(level, module)]|` from-imports of that pair;
(2) every regenerated from-import carries exactly one `(name, alias)`,
and it belongs to its pair's collected set; (3) the non-blank output
lines are exactly the renderings of the sorted declarations, one line
each. -/
theorem C1_merge_per_name (env : Env) (s : ImpSorterState) (ns : List (Key × Node))
    (hk : (s.from_imports.map Prod.fst).Nodup)
    (h : new_nodes env s = .ok ns) (lv : Nat) (mo : Option String) :
    ((ns.map Prod.snd).countP (is_from_node lv mo)
        = (dict_get s.from_imports (lv, mo)).length)
    ∧ (∀ kn ∈ ns, ∀ md names level, kn.2 = Node.impFrom md names level →
        ∃ al, names = [al]
          ∧ (al.name, al.asname) ∈ dict_get s.from_imports (level, md))
    ∧ (∀ addr L, write_sorted env addr s = .ok L →
        L.filter (fun x => x ≠ "")
          = (sort_pairs addr ns).map fun kn => render_stmt kn.2) := by
  have hmap : ns.map Prod.snd = raw_nodes s := by
    rw [attach_keys_of_ok env (raw_nodes s) ns h, List.map_map]
    have hcomp : (Prod.snd ∘ fun n : Node => (key_of env n, n)) = id := rfl
    rw [hcomp, List.map_id]
  refine ⟨?_, ?_, ?_⟩
  · rw [hmap]
    unfold raw_nodes
    rw [List.countP_append, countP_raw_from _ _ _ hk]
    have hz : (s.imports.map fun p => Node.imp [⟨p.1, p.2⟩]).countP
        (is_from_node lv mo) = 0 := by
      apply List.countP_eq_zero.mpr
      intro n hn
      obtain ⟨p, _, rfl⟩ := List.mem_map.mp hn
      simp [is_from_node]
    rw [hz]
    omega
  · intro kn hkn md names level hshape
    have hmem : kn.2 ∈ raw_nodes s := by
      rw [← hmap]
      exact List.mem_map.mpr ⟨kn, hkn, rfl⟩
    rw [mem_raw_nodes] at hmem
    rcases hmem with ⟨kv, hkv, q, hq, heq⟩ | ⟨q, hq, heq⟩
    · rw [hshape] at heq
      injection heq with e1 e2 e3
      refine ⟨⟨q.1, q.2⟩, e2, ?_⟩
      have hkey : (level, md) = kv.1 := by
        rw [e1, e3]
      rw [hkey, dict_get_of_mem s.from_imports hk kv hkv]
      simpa using hq
    · rw [hshape] at heq
      cases heq
  · intro addr L hL
    rw [write_sorted_ok env addr s ns h] at hL
    injection hL with hL
    rw [← hL]
    exact render_loop_filter none (sort_pairs addr ns)

/-! ### Re-collecting the rendered statements (claim C7) -/

/-- A successful key attachment means every node's key computes. -/
theorem attach_keys_all_ok (env : Env) (l : List Node) (r : List (Key × Node))
    (h : attach_keys env l = .ok r) :
    ∀ n ∈ l, ∃ k, node_sort_key env n = .ok k := by
  induction l generalizing r with
  | nil =>
    intro n hn
    cases hn
  | cons n rest ih =>
    simp only [attach_keys] at h
    cases hk : node_sort_key env n with
    | error e => rw [hk] at h; cases h
    | ok k =>
      rw [hk] at h
      cases hr : attach_keys env rest with
      | error e => rw [hr] at h; cases h
      | ok ps =>
        intro n' hn'
        rcases List.mem_cons.mp hn' with rfl | hmem
        · exact ⟨k, hk⟩
        · exact ih ps hr n' hmem

/-- When every node's key computes, `attach_keys` succeeds and pairs each
node with its key. -/
theorem attach_keys_of_all_ok (env : Env) (l : List Node)
    (h : ∀ n ∈ l, ∃ k, node_sort_key env n = .ok k) :
    attach_keys env l = .ok (l.map fun n => (key_of env n, n)) := by
  induction l with
  | nil => rfl
  | cons n rest ih =>
    obtain ⟨k, hk⟩ := h n (List.mem_cons_self n rest)
    have hkey : key_of env n = k := by
      unfold key_of
      rw [hk]
    simp only [attach_keys, hk, ih (fun n' hn' => h n' (List.mem_cons_of_mem n hn')),
      List.map_cons, hkey]

/-- Re-parsing a node list's statements yields plain pairs exactly from
its plain-import nodes. -/
theorem mem_plain_pairs_nodes (ln : List Node) (p : NamePair) :
    p ∈ plain_pairs (ln.map stmt_of_node)
      ↔ ∃ n ∈ ln, ∃ names, n = Node.imp names
          ∧ p ∈ names.map fun al => (al.name, al.asname) := by
  induction ln with
  | nil => simp [plain_pairs]
  | cons n rest ih =>
    rw [List.map_cons]
    cases n with
    | imp names =>
      simp only [plain_pairs, stmt_of_node, if_pos rfl, List.mem_append, ih,
        List.mem_cons]
      constructor
      · rintro (hp | ⟨n', hn', names', hshape, hp⟩)
        · exact ⟨Node.imp names, Or.inl rfl, names, rfl, hp⟩
        · exact ⟨n', Or.inr hn', names', hshape, hp⟩
      · rintro ⟨n', hn' | hn', names', hshape, hp⟩
        · rw [hn'] at hshape
          injection hshape with he
          exact Or.inl (he ▸ hp)
        · exact Or.inr ⟨n', hn', names', hshape, hp⟩
    | impFrom m names lv =>
      simp only [plain_pairs, stmt_of_node, List.nil_append, ih, List.mem_cons]
      constructor
      · rintro ⟨n', hn', names', hshape, hp⟩
        exact ⟨n', Or.inr hn', names', hshape, hp⟩
      · rintro ⟨n', hn' | hn', names', hshape, hp⟩
        · rw [hn'] at hshape
          cases hshape
        · exact ⟨n', hn', names', hshape, hp⟩

/-- Re-parsing a node list's statements yields dictionary keys exactly
from its from-import nodes. -/
theorem mem_from_keys_nodes (ln : List Node) (k : FromKey) :
    k ∈ from_keys_of (ln.map stmt_of_node)
      ↔ ∃ n ∈ ln, ∃ m names lv, n = Node.impFrom m names lv ∧ k = (lv, m) := by
  induction ln with
  | nil => simp [from_keys_of]
  | cons n rest ih =>
    rw [List.map_cons]
    cases n with
    | impFrom m names lv =>
      have hunf : from_keys_of (stmt_of_node (Node.impFrom m names lv)
            :: List.map stmt_of_node rest)
          = (lv, m) :: from_keys_of (List.map stmt_of_node rest) := rfl
      rw [hunf]
      simp only [List.mem_cons, ih]
      constructor
      · rintro (rfl | ⟨n', hn', m', names', lv', hshape, hk⟩)
        · exact ⟨Node.impFrom m names lv, Or.inl rfl, m, names, lv, rfl, rfl⟩
        · exact ⟨n', Or.inr hn', m', names', lv', hshape, hk⟩
      · rintro ⟨n', hn' | hn', m', names', lv', hshape, hk⟩
        · rw [hn'] at hshape
          injection hshape with e1 e2 e3
          exact Or.inl (by rw [hk, e1, e3])
        · exact Or.inr ⟨n', hn', m', names', lv', hshape, hk⟩
    | imp names =>
      have hunf : from_keys_of (stmt_of_node (Node.imp names)
            :: List.map stmt_of_node rest)
          = from_keys_of (List.map stmt_of_node rest) := rfl
      rw [hunf]
      simp only [ih, List.mem_cons]
      constructor
      · rintro ⟨n', hn', m', names', lv', hshape, hk⟩
        exact ⟨n', Or.inr hn', m', names', lv', hshape, hk⟩
      · rintro ⟨n', hn' | hn', m', names', lv', hshape, hk⟩
        · rw [hn'] at hshape
          cases hshape
        · exact ⟨n', hn', m', names', lv', hshape, hk⟩

/-- Re-parsing a node list's statements yields per-key pairs exactly from
its from-import nodes of that key. -/
theorem mem_from_pairs_nodes (ln : List Node) (k : FromKey) (p : NamePair) :
    p ∈ from_pairs k (ln.map stmt_of_node)
      ↔ ∃ n ∈ ln, ∃ m names lv, n = Node.impFrom m names lv ∧ (lv, m) = k
          ∧ p ∈ names.map fun al => (al.name, al.asname) := by
  induction ln with
  | nil => simp [from_pairs]
  | cons n rest ih =>
    rw [List.map_cons]
    cases n with
    | impFrom m names lv =>
      have hunf : from_pairs k (stmt_of_node (Node.impFrom m names lv)
            :: List.map stmt_of_node rest)
          = (if (0 : Nat) = 0 ∧ (lv, m) = k
              then names.map fun nm => (nm.name, nm.asname) else [])
            ++ from_pairs k (List.map stmt_of_node rest) := rfl
      rw [hunf]
      by_cases hk : (lv, m) = k
      · rw [if_pos (And.intro rfl hk)]
        simp only [List.mem_append, ih, List.mem_cons]
        constructor
        · rintro (hp | ⟨n', hn', m', names', lv', hshape, hk', hp⟩)
          · exact ⟨Node.impFrom m names lv, Or.inl rfl, m, names, lv, rfl, hk, hp⟩
          · exact ⟨n', Or.inr hn', m', names', lv', hshape, hk', hp⟩
        · rintro ⟨n', hn' | hn', m', names', lv', hshape, hk', hp⟩
          · rw [hn'] at hshape
            injection hshape with e1 e2 e3
            exact Or.inl (by rw [← e2] at hp; exact hp)
          · exact Or.inr ⟨n', hn', m', names', lv', hshape, hk', hp⟩
      · rw [if_neg (fun hx : (0 : Nat) = 0 ∧ (lv, m) = k => hk hx.2),
          List.nil_append]
        simp only [ih, List.mem_cons]
        constructor
        · rintro ⟨n', hn', m', names', lv', hshape, hk', hp⟩
          exact ⟨n', Or.inr hn', m', names', lv', hshape, hk', hp⟩
        · rintro ⟨n', hn' | hn', m', names', lv', hshape, hk', hp⟩
          · rw [hn'] at hshape
            injection hshape with e1 e2 e3
            rw [← e1, ← e3] at hk'
            exact absurd hk' hk
          · exact ⟨n', hn', m', names', lv', hshape, hk', hp⟩
    | imp names =>
      have hunf : from_pairs k (stmt_of_node (Node.imp names)
            :: List.map stmt_of_node rest)
          = from_pairs k (List.map stmt_of_node rest) := rfl
      rw [hunf]
      simp only [ih, List.mem_cons]
      constructor
      · rintro ⟨n', hn', m', names', lv', hshape, hk', hp⟩
        exact ⟨n', Or.inr hn', m', names', lv', hshape, hk', hp⟩
      · rintro ⟨n', hn' | hn', m', names', lv', hshape, hk', hp⟩
        · rw [hn'] at hshape
          cases hshape
        · exact ⟨n', hn', m', names', lv', hshape, hk', hp⟩

/-- Re-collecting any permutation of the regenerated nodes reproduces the
plain-import pairs of the original state. -/
theorem plain_roundtrip (s : ImpSorterState) (ln : List Node)
    (hperm : ln.Perm (raw_nodes s)) (p : NamePair) :
    p ∈ plain_pairs (ln.map stmt_of_node) ↔ p ∈ s.imports := by
  rw [mem_plain_pairs_nodes]
  constructor
  · rintro ⟨n, hn, names, rfl, hp⟩
    have hmem := hperm.subset hn
    rw [mem_raw_nodes] at hmem
    rcases hmem with ⟨kv, _, q, _, heq⟩ | ⟨q, hq, heq⟩
    · simp at heq
    · injection heq with he
      rw [he] at hp
      simp only [List.map_cons, List.map_nil, List.mem_singleton] at hp
      rw [hp]
      simpa using hq
  · intro hp
    refine ⟨Node.imp [⟨p.1, p.2⟩], ?_, [⟨p.1, p.2⟩], rfl, ?_⟩
    · apply hperm.mem_iff.mpr
      rw [mem_raw_nodes]
      exact Or.inr ⟨p, hp, rfl⟩
    · simp

/-- Re-collecting any permutation of the regenerated nodes reproduces the
dictionary keys of the original state (every key owns at least one
name). -/
theorem from_keys_roundtrip (s : ImpSorterState)
    (hne : ∀ kv ∈ s.from_imports, kv.2 ≠ []) (ln : List Node)
    (hperm : ln.Perm (raw_nodes s)) (k : FromKey) :
    k ∈ from_keys_of (ln.map stmt_of_node)
      ↔ k ∈ s.from_imports.map Prod.fst := by
  rw [mem_from_keys_nodes]
  constructor
  · rintro ⟨n, hn, m, names, lv, rfl, rfl⟩
    have hmem := hperm.subset hn
    rw [mem_raw_nodes] at hmem
    rcases hmem with ⟨kv, hkv, q, hq, heq⟩ | ⟨q, hq, heq⟩
    · injection heq with e1 e2 e3
      have hkk : (lv, m) = kv.1 := by
        rw [e1, e3]
      rw [hkk]
      exact List.mem_map.mpr ⟨kv, hkv, rfl⟩
    · simp at heq
  · intro hk
    have hent := mem_of_dict_get s.from_imports k hk
    have hval : dict_get s.from_imports k ≠ [] := hne _ hent
    obtain ⟨q, hq⟩ := List.exists_mem_of_ne_nil _ hval
    refine ⟨Node.impFrom k.2 [⟨q.1, q.2⟩] k.1, ?_, k.2, [⟨q.1, q.2⟩], k.1, rfl, rfl⟩
    apply hperm.mem_iff.mpr
    rw [mem_raw_nodes]
    exact Or.inl ⟨(k, dict_get s.from_imports k), hent, q, hq, rfl⟩

/-- Re-collecting any permutation of the regenerated nodes reproduces
every key's name set of the original state. -/
theorem from_pairs_roundtrip (s : ImpSorterState)
    (hk : (s.from_imports.map Prod.fst).Nodup) (ln : List Node)
    (hperm : ln.Perm (raw_nodes s)) (k : FromKey) (p : NamePair) :
    p ∈ from_pairs k (ln.map stmt_of_node)
      ↔ p ∈ dict_get s.from_imports k := by
  rw [mem_from_pairs_nodes]
  constructor
  · rintro ⟨n, hn, m, names, lv, rfl, hkeq, hp⟩
    have hmem := hperm.subset hn
    rw [mem_raw_nodes] at hmem
    rcases hmem with ⟨kv, hkv, q, hq, heq⟩ | ⟨q, hq, heq⟩
    · injection heq with e1 e2 e3
      rw [e2] at hp
      simp only [List.map_cons, List.map_nil, List.mem_singleton] at hp
      have hkk : k = kv.1 := by
        rw [← hkeq, e1, e3]
      rw [hkk, dict_get_of_mem s.from_imports hk kv hkv, hp]
      simpa using hq
    · simp at heq
  · intro hp
    have hkmem : k ∈ s.from_imports.map Prod.fst := by
      by_contra hx
      rw [dict_get_not_mem _ _ hx] at hp
      cases hp
    have hent := mem_of_dict_get s.from_imports k hkmem
    refine ⟨Node.impFrom k.2 [⟨p.1, p.2⟩] k.1, ?_, k.2, [⟨p.1, p.2⟩], k.1,
      rfl, rfl, by simp⟩
    apply hperm.mem_iff.mpr
    rw [mem_raw_nodes]
    exact Or.inl ⟨(k, dict_get s.from_imports k), hent, p, hp, rfl⟩

/-- The from-import dictionary with every name set in `sorted` order, the
form in which `new_nodes` consumes it. -/
def sorted_entries (m : List (FromKey × List NamePair)) :
    List (FromKey × List NamePair) :=
  m.map fun kv => (kv.1, kv.2.insertionSort npLe)

/-- Sorting with the Python pair order is canonical: permuted inputs sort
to the same list. -/
theorem insertionSort_np_eq_of_perm (l1 l2 : List NamePair) (h : l1.Perm l2) :
    l1.insertionSort npLe = l2.insertionSort npLe :=
  List.eq_of_perm_of_sorted
    ((List.perm_insertionSort npLe l1).trans
      (h.trans (List.perm_insertionSort npLe l2).symm))
    (List.sorted_insertionSort npLe l1) (List.sorted_insertionSort npLe l2)

/-- The from-import part of `raw_nodes`, read off the canonically sorted
entries. -/
theorem raw_from_alt (m : List (FromKey × List NamePair)) :
    (m.flatMap fun kv => (kv.2.insertionSort npLe).map fun p =>
        Node.impFrom kv.1.2 [⟨p.1, p.2⟩] kv.1.1)
      = (sorted_entries m).flatMap fun kv => kv.2.map fun p =>
          Node.impFrom kv.1.2 [⟨p.1, p.2⟩] kv.1.1 := by
  induction m with
  | nil => rfl
  | cons e rest ih =>
    rw [show sorted_entries (e :: rest)
        = (e.1, e.2.insertionSort npLe) :: sorted_entries rest from rfl]
    rw [List.flatMap_cons, List.flatMap_cons, ih]

/-- Membership in the canonicalized entry list, for duplicate-free
keys. -/
theorem mem_sorted_entries (m : List (FromKey × List NamePair))
    (hk : (m.map Prod.fst).Nodup) (kv' : FromKey × List NamePair) :
    kv' ∈ sorted_entries m
      ↔ kv'.1 ∈ m.map Prod.fst
        ∧ kv'.2 = (dict_get m kv'.1).insertionSort npLe := by
  unfold sorted_entries
  constructor
  · intro hmem
    obtain ⟨kv, hkv, heq⟩ := List.mem_map.mp hmem
    constructor
    · rw [← heq]
      exact List.mem_map.mpr ⟨kv, hkv, rfl⟩
    · rw [← heq]
      have := dict_get_of_mem m hk kv hkv
      rw [show (kv.1, kv.2.insertionSort npLe).1 = kv.1 from rfl] at *
      rw [show (kv.1, kv.2.insertionSort npLe).2 = kv.2.insertionSort npLe from rfl]
      rw [this]
  · rintro ⟨hmem, hval⟩
    refine List.mem_map.mpr ⟨(kv'.1, dict_get m kv'.1), mem_of_dict_get m kv'.1 hmem, ?_⟩
    have : kv' = (kv'.1, kv'.2) := rfl
    rw [this, ← hval]

/-- With duplicate-free keys the canonicalized entry list itself is
duplicate free. -/
theorem sorted_entries_nodup (m : List (FromKey × List NamePair))
    (hk : (m.map Prod.fst).Nodup) : (sorted_entries m).Nodup := by
  have hkeys : (sorted_entries m).map Prod.fst = m.map Prod.fst := by
    unfold sorted_entries
    rw [List.map_map]
    rfl
  exact List.Nodup.of_map Prod.fst (hkeys ▸ hk)

/-- Two dictionaries with the same key set and per-key name sets have
permuted canonical entry lists. -/
theorem sorted_entries_perm (mA mB : List (FromKey × List NamePair))
    (hkA : (mA.map Prod.fst).Nodup) (hkB : (mB.map Prod.fst).Nodup)
    (hkeys : ∀ k, k ∈ mA.map Prod.fst ↔ k ∈ mB.map Prod.fst)
    (hvals : ∀ k, (dict_get mA k).Perm (dict_get mB k)) :
    (sorted_entries mA).Perm (sorted_entries mB) := by
  rw [List.perm_ext_iff_of_nodup (sorted_entries_nodup mA hkA)
    (sorted_entries_nodup mB hkB)]
  intro kv'
  rw [mem_sorted_entries mA hkA, mem_sorted_entries mB hkB, hkeys kv'.1,
    insertionSort_np_eq_of_perm _ _ (hvals kv'.1)]

/-- Two states agreeing as sets (imports, keys, per-key names) regenerate
permuted node lists. -/
theorem raw_nodes_perm (sA sB : ImpSorterState)
    (hkA : (sA.from_imports.map Prod.fst).Nodup)
    (hkB : (sB.from_imports.map Prod.fst).Nodup)
    (hkeys : ∀ k, k ∈ sA.from_imports.map Prod.fst
      ↔ k ∈ sB.from_imports.map Prod.fst)
    (hvals : ∀ k, (dict_get sA.from_imports k).Perm (dict_get sB.from_imports k))
    (himp : sA.imports.Perm sB.imports) :
    (raw_nodes sA).Perm (raw_nodes sB) := by
  unfold raw_nodes
  apply List.Perm.append
  · rw [raw_from_alt, raw_from_alt]
    exact List.Perm.flatMap_right _
      (sorted_entries_perm sA.from_imports sB.from_imports hkA hkB hkeys hvals)
  · exact himp.map _

/-- Claim C7 as amended: when all sort keys are pairwise distinct,
re-parsing the rendered output, re-collecting the statements, and
re-sorting and re-rendering them (with any identity numbering) reproduces
the run byte for byte.  The duplicate-freedom hypotheses hold for every
state the visitor builds; the distinct-keys hypothesis is what the tied
counterexample violates. -/
theorem C7_idempotent_distinct_keys (env : Env) (addr addr' : Node → Nat)
    (s : ImpSorterState) (ns : List (Key × Node))
    (hI : s.imports.Nodup)
    (hK : (s.from_imports.map Prod.fst).Nodup)
    (hVnd : ∀ kv ∈ s.from_imports, kv.2.Nodup)
    (hVne : ∀ kv ∈ s.from_imports, kv.2 ≠ [])
    (h : new_nodes env s = .ok ns)
    (hnd : (ns.map Prod.fst).Nodup) :
    write_sorted env addr' (collect (reparse (sort_pairs addr ns)))
      = write_sorted env addr s := by
  have hns : ns = (raw_nodes s).map fun n => (key_of env n, n) :=
    attach_keys_of_ok env (raw_nodes s) ns h
  have hall : ∀ n ∈ raw_nodes s, ∃ k, node_sort_key env n = .ok k :=
    attach_keys_all_ok env _ ns h
  have hmap : ns.map Prod.snd = raw_nodes s := by
    rw [hns, List.map_map]
    have hcomp : (Prod.snd ∘ fun n : Node => (key_of env n, n)) = id := rfl
    rw [hcomp, List.map_id]
  have hpperm : (sort_pairs addr ns).map Prod.snd |>.Perm (raw_nodes s) := by
    have h2 := (List.perm_insertionSort (pairRel addr) ns).map Prod.snd
    rwa [hmap] at h2
  have hreparse : reparse (sort_pairs addr ns)
      = ((sort_pairs addr ns).map Prod.snd).map stmt_of_node := by
    rw [List.map_map]
    rfl
  have hinit_get : ∀ k, dict_get initState.from_imports k = [] := fun k => rfl
  -- the re-collected state, seen through the collect characterizations
  have hS1 : ∀ p, p ∈ (collect (reparse (sort_pairs addr ns))).imports
      ↔ p ∈ s.imports := by
    intro p
    unfold collect
    rw [collect_imports_mem, hreparse,
      plain_roundtrip s ((sort_pairs addr ns).map Prod.snd) hpperm p]
    simp [initState]
  have hS2 : (collect (reparse (sort_pairs addr ns))).imports.Nodup :=
    collect_imports_nodup _ initState List.nodup_nil
  have hS3 : ∀ k, k ∈ (collect (reparse (sort_pairs addr ns))).from_imports.map Prod.fst
      ↔ k ∈ s.from_imports.map Prod.fst := by
    intro k
    unfold collect
    rw [collect_from_keys_mem, hreparse,
      from_keys_roundtrip s hVne ((sort_pairs addr ns).map Prod.snd) hpperm k]
    simp [initState]
  have hS4 : ((collect (reparse (sort_pairs addr ns))).from_imports.map Prod.fst).Nodup :=
    collect_from_keys_nodup _ initState List.nodup_nil
  have hS5 : ∀ k p, p ∈ dict_get (collect (reparse (sort_pairs addr ns))).from_imports k
      ↔ p ∈ dict_get s.from_imports k := by
    intro k p
    unfold collect
    rw [collect_from_get_mem, hreparse,
      from_pairs_roundtrip s hK ((sort_pairs addr ns).map Prod.snd) hpperm k p]
    rw [hinit_get]
    simp
  have hS6 : ∀ k, (dict_get (collect (reparse (sort_pairs addr ns))).from_imports k).Nodup :=
    collect_from_get_nodup _ initState (fun k => by rw [hinit_get]; exact List.nodup_nil)
  have hsV : ∀ k, (dict_get s.from_imports k).Nodup := by
    intro k
    by_cases hm : k ∈ s.from_imports.map Prod.fst
    · exact hVnd _ (mem_of_dict_get s.from_imports k hm)
    · rw [dict_get_not_mem _ _ hm]
      exact List.nodup_nil
  have hIperm : (collect (reparse (sort_pairs addr ns))).imports.Perm s.imports :=
    (List.perm_ext_iff_of_nodup hS2 hI).mpr hS1
  have hVperm : ∀ k, (dict_get (collect (reparse (sort_pairs addr ns))).from_imports k).Perm
      (dict_get s.from_imports k) :=
    fun k => (List.perm_ext_iff_of_nodup (hS6 k) (hsV k)).mpr (hS5 k)
  have hRperm : (raw_nodes (collect (reparse (sort_pairs addr ns)))).Perm (raw_nodes s) :=
    raw_nodes_perm _ s hS4 hK hS3 hVperm hIperm
  have hall2 : ∀ n ∈ raw_nodes (collect (reparse (sort_pairs addr ns))),
      ∃ k, node_sort_key env n = .ok k :=
    fun n hn => hall n (hRperm.subset hn)
  have h2ok : new_nodes env (collect (reparse (sort_pairs addr ns)))
      = .ok ((raw_nodes (collect (reparse (sort_pairs addr ns)))).map
          fun n => (key_of env n, n)) :=
    attach_keys_of_all_ok env _ hall2
  have hnsperm : ((raw_nodes (collect (reparse (sort_pairs addr ns)))).map
      fun n => (key_of env n, n)).Perm ns := by
    have hx := hRperm.map (fun n => (key_of env n, n))
    rwa [← hns] at hx
  have hnd2 : (((raw_nodes (collect (reparse (sort_pairs addr ns)))).map
      (fun n => (key_of env n, n))).map Prod.fst).Nodup :=
    ((hnsperm.map Prod.fst).nodup_iff).mpr hnd
  rw [write_sorted_ok env addr' _ _ h2ok, write_sorted_ok env addr s ns h]
  have hsorteq : sort_pairs addr' ((raw_nodes (collect (reparse (sort_pairs addr ns)))).map
      fun n => (key_of env n, n)) = sort_pairs addr ns := by
    apply sorted_pairs_unique addr' addr
    · exact (List.perm_insertionSort _ _).trans
        (hnsperm.trans (List.perm_insertionSort _ ns).symm)
    · exact ((List.perm_insertionSort _ _).map Prod.fst).nodup_iff.mpr hnd2
    · exact List.sorted_insertionSort _ _
    · exact List.sorted_insertionSort _ _
  rw [hsorteq]

/-- Witness for C7: feeding the rendered two-line `os` output back through
collection re-renders it byte for byte, whatever identity numbering the
second run sees. -/
theorem C7_idempotent_distinct_keys_witness :
    (stateTwoFromOs.imports.Nodup
      ∧ (stateTwoFromOs.from_imports.map Prod.fst).Nodup
      ∧ (∀ kv ∈ stateTwoFromOs.from_imports, kv.2.Nodup)
      ∧ (∀ kv ∈ stateTwoFromOs.from_imports, kv.2 ≠ [])
      ∧ new_nodes envStd stateTwoFromOs = .ok nsTwoFromOs
      ∧ (nsTwoFromOs.map Prod.fst).Nodup)
    ∧ write_sorted envStd addrTieB
        (collect (reparse (sort_pairs addrTieA nsTwoFromOs)))
        = write_sorted envStd addrTieA stateTwoFromOs :=
  ⟨⟨by decide, by decide, by decide, by decide, by decide, by decide⟩,
   C7_idempotent_distinct_keys envStd addrTieA addrTieB stateTwoFromOs nsTwoFromOs
     (by decide) (by decide) (by decide) (by decide) (by decide) (by decide)⟩

/-- Claim C7 counterexample: with two from-imports whose keys tie exactly
(`from os import path` and `from os import path as p`), feeding the first
run's output back through parse → collect → sort → render in the same
environment (the second run merely allocates the two nodes in the other
order) yields different bytes, so the pipeline as claimed is not
idempotent. -/
theorem C7_counterexample :
    write_sorted envStd addrTieA stateTiedKeys
      = .ok ["from os import path", "from os import path as p"]
    ∧ (match new_nodes envStd stateTiedKeys with
       | .ok ns => write_sorted envStd addrTieB
          (collect (reparse (sort_pairs addrTieA ns)))
       | .error e => .error e)
      = .ok ["from os import path as p", "from os import path"]
    ∧ (Except.ok ["from os import path as p", "from os import path"]
        ≠ (.ok ["from os import path", "from os import path as p"] :
            Except PyExc (List String))) := by decide

/-- Witness for C1: the two deduplicated `os` from-imports regenerate two
single-name declarations for the pair `(0, os)` and render on two
non-blank lines. -/
theorem C1_merge_per_name_witness :
    ((stateTwoFromOs.from_imports.map Prod.fst).Nodup
      ∧ new_nodes envStd stateTwoFromOs = .ok nsTwoFromOs)
    ∧ (nsTwoFromOs.map Prod.snd).countP (is_from_node 0 (some "os"))
        = (dict_get stateTwoFromOs.from_imports (0, some "os")).length :=
  ⟨⟨by decide, by decide⟩,
   (C1_merge_per_name envStd stateTwoFromOs nsTwoFromOs (by decide) (by decide)
      0 (some "os")).1⟩


/-- Claim C1 counterexample: two from-imports sharing the `(0, os)` pair
are rendered as two separate `from os import ...` statements (one per
name), not as a single comma-joined statement. -/
theorem C1_counterexample :
    write_sorted envStd addrZero stateTwoFromOs
      = .ok ["from os import getcwd", "from os import path"]
    ∧ (match new_nodes envStd stateTwoFromOs with
       | .ok ns => (ns.map Prod.snd).countP (is_from_node 0 (some "os"))
       | .error _ => 0) = 2 := by decide

end PyImpSort
